import Mathlib

/-!
Verification of the git-clone version-control storage engine.

The development shallowly embeds the Python modules `data.py`, `base.py` and
the `log` command of `cli.py` into Lean.  Python `bytes`/`str` values are both
modelled as `String` (`encode`/`decode` become the identity; all structural
characters of the formats are ASCII).  The file system backing the object
store and the reference store is modelled as a lookup function
`String → Option String`; the working directory is modelled as a flat list of
`(path, contents)` pairs.  Functions whose Python recursion runs through the
store (and hence is not structurally decreasing) take an explicit fuel
argument; exhausting the fuel yields the distinguished outcome `fuelOut`,
which corresponds to non-termination of the original recursion and is
distinct both from success and from a raised exception.  The SHA-1 digest is
abstracted into a function parameter `hash : String → String`; none of the
properties proved here depends on the concrete digest beyond it being a
function (and, where content addressing itself is at stake, injective on the
tagged objects, i.e. collision-free).
-/

/-- Result of running a piece of Python code: normal return, a raised
exception (identified by the exception type name), or exhaustion of the fuel
that bounds an a-priori unbounded recursion. -/
inductive PyOutcome (α : Type) where
  | ok : α → PyOutcome α
  | error : String → PyOutcome α
  | fuelOut : PyOutcome α
deriving DecidableEq

/-- Model of Python `bytes.partition(sep)` / `str.partition(sep)`, keeping the
pieces before and after the first occurrence of `sep` (both empty tails when
`sep` is absent, as in Python where the result is `(s, b"", b"")`). -/
def pyPartition (s : String) (sep : Char) : String × String :=
  (⟨s.data.takeWhile (· != sep)⟩, ⟨(s.data.dropWhile (· != sep)).tail⟩)

/-- The persistent key-value storage root: maps an object address (file name
under `objects/`) to the raw stored bytes. -/
abbrev Store := String → Option String

/-- The reference storage: maps a reference path (`HEAD`, `refs/tags/x`, ...)
to the raw contents of the corresponding file, `none` when the file does not
exist. -/
abbrev Refs := String → Option String

/-- data.py: `GIT_DIR = ".git-clone"`. -/
def GIT_DIR : String := ".git-clone"

/-- data.py: `RefValue = namedtuple("RefValue", ["symbolic", "value"])`.
The `value` field holds either a string or Python `None`. -/
structure RefValue where
  symbolic : Bool
  value : Option String
deriving DecidableEq

/-- Python truth value of a `RefValue` instance: a namedtuple is a tuple, and
a tuple is truthy exactly when its length is nonzero; `RefValue` has the two
fields `symbolic` and `value`, so every instance is truthy. -/
def RefValue.pyLen (_ : RefValue) : Nat := 2

/-- `bool(r)` for a `RefValue` `r` (see `RefValue.pyLen`). -/
def RefValue.pyTruthy (r : RefValue) : Bool := r.pyLen != 0

/-- `repr`/`str` of a `RefValue`, as interpolated by an f-string. -/
def RefValue.pyRepr (r : RefValue) : String :=
  "RefValue(symbolic=" ++ (if r.symbolic then "True" else "False") ++
    ", value=" ++ (match r.value with
      | none => "None"
      | some s => "\x27" ++ s ++ "\x27") ++ ")"

/-- data.py `hash_object(data, type_="blob")`: tags the payload with the kind
and a NUL byte, stores the tagged bytes under their digest, and returns the
digest.  The digest function is the `hash` parameter. -/
def hash_object (hash : String → String) (store : Store) (data : String)
    (ty : String) : Store × String :=
  let obj := ty ++ "\x00" ++ data
  let oid := hash obj
  (fun a => if a = oid then some obj else store a, oid)

/-- data.py `get_object(oid, expected="blob")`: reads the stored bytes,
splits off the kind tag at the first NUL, and checks the kind when `expected`
is not `None`.  A missing object raises `FileNotFoundError` (the `open` call
fails); a kind mismatch trips the `assert`. -/
def get_object (store : Store) (oid : String) (expected : Option String) :
    PyOutcome String :=
  match store oid with
  | none => .error "FileNotFoundError"
  | some obj =>
    let ty := (pyPartition obj '\x00').1
    let content := (pyPartition obj '\x00').2
    match expected with
    | none => .ok content
    | some e => if ty = e then .ok content else .error "AssertionError"

theorem takeWhile_ne_append (k p : List Char) (c : Char) (hk : c ∉ k) :
    (k ++ c :: p).takeWhile (· != c) = k := by
  induction k with
  | nil => simp [List.takeWhile]
  | cons a t ih =>
    simp only [List.mem_cons, not_or] at hk
    have hne : (a != c) = true := by
      simp only [bne_iff_ne, ne_eq]
      exact fun h => hk.1 h.symm
    simp [List.takeWhile, hne, ih hk.2]

theorem dropWhile_ne_append (k p : List Char) (c : Char) (hk : c ∉ k) :
    (k ++ c :: p).dropWhile (· != c) = c :: p := by
  induction k with
  | nil => simp [List.dropWhile]
  | cons a t ih =>
    simp only [List.mem_cons, not_or] at hk
    have hne : (a != c) = true := by
      simp only [bne_iff_ne, ne_eq]
      exact fun h => hk.1 h.symm
    simp [List.dropWhile, hne, ih hk.2]

theorem pyPartition_append (k p : String) (c : Char) (hk : c ∉ k.data) :
    pyPartition (k ++ ⟨[c]⟩ ++ p) c = (k, p) := by
  have hdata : (k ++ ⟨[c]⟩ ++ p).data = k.data ++ c :: p.data := by
    simp [String.data_append]
  simp only [pyPartition, hdata, takeWhile_ne_append _ _ _ hk,
    dropWhile_ne_append _ _ _ hk, List.tail_cons]

/-- The round-trip key step: looking up what `hash_object` just stored and
stripping the tag returns the original payload. -/
theorem C5_round_trip (hash : String → String) (store : Store) (p k : String)
    (hk : '\x00' ∉ k.data) :
    get_object (hash_object hash store p k).1 (hash_object hash store p k).2
      (some k) = .ok p := by
  have hpart : pyPartition (k ++ "\x00" ++ p) '\x00' = (k, p) := by
    have : ("\x00" : String) = ⟨['\x00']⟩ := rfl
    rw [this]
    exact pyPartition_append k p '\x00' hk
  simp [hash_object, get_object, hpart]

theorem C5_round_trip_witness :
    '\x00' ∉ ("blob" : String).data ∧
      get_object (hash_object (fun s => s) (fun _ => none) "hello" "blob").1
        (hash_object (fun s => s) (fun _ => none) "hello" "blob").2
        (some "blob") = .ok "hello" :=
  ⟨by decide, C5_round_trip (fun s => s) (fun _ => none) "hello" "blob" (by decide)⟩

/-- The characters stripped by Python `str.strip()` (on the inputs occurring
here; the exotic Unicode spaces do not appear in any payload). -/
def pySpace (c : Char) : Bool :=
  c = ' ' || c = '\t' || c = '\n' || c = '\r' || c = '\x0b' || c = '\x0c'

/-- Python `str.strip()`: drop leading and trailing whitespace. -/
def pyStrip (s : String) : String :=
  ⟨((s.data.dropWhile pySpace).reverse.dropWhile pySpace).reverse⟩

/-- Does the second list start with the first? -/
def listStarts : List Char → List Char → Bool
  | [], _ => true
  | _ :: _, [] => false
  | p :: ps, c :: cs => p = c && listStarts ps cs

/-- Python `s.startswith(pat)`. -/
def pyStartsWith (s pat : String) : Bool := listStarts pat.data s.data

/-- Python `s.split(sep, 1)[1]`: the part after the first occurrence of
`sep` (every call site first checks that `sep` occurs). -/
def pySplitFirstAfter (s : String) (sep : Char) : String :=
  ⟨(s.data.dropWhile (· != sep)).tail⟩

/-- data.py `_get_ref_internal(ref, deref)`: reads and strips the reference
file, detects the `ref:` marker, and either recurses on the target
(`deref=True`), reports the symbolic target without recursing
(`deref=False`), or reports the direct value.  A missing file leaves
`value = None`.  The recursion through the reference store is bounded by
`fuel`; `none` signals exhaustion (the Python original would recurse
forever only on a reference cycle). -/
def get_ref_internal (refs : Refs) : Nat → String → Bool → Option (String × RefValue)
  | 0, _, _ => none
  | fuel+1, ref, deref =>
    let value : Option String := (refs ref).map pyStrip
    let symbolic : Bool :=
      match value with
      | none => false
      | some v => v != "" && pyStartsWith v "ref:"
    if symbolic then
      let target := pyStrip (pySplitFirstAfter (value.getD "") ':')
      if deref then get_ref_internal refs fuel target true
      else some (ref, ⟨true, some target⟩)
    else some (ref, ⟨false, value⟩)

/-- data.py `get_ref(ref, deref=True)`: the `RefValue` component of
`_get_ref_internal`. -/
def get_ref (refs : Refs) (fuel : Nat) (ref : String) (deref : Bool) :
    Option RefValue :=
  (get_ref_internal refs fuel ref deref).map (·.2)

/-- A Python value in the dynamically typed `value` position of
`update_ref`: the refactored data.py expects a `RefValue`, but the callers
in base.py still pass a plain string. -/
inductive PyVal where
  | str : String → PyVal
  | refv : RefValue → PyVal
deriving DecidableEq

/-- data.py `update_ref(ref, value, deref=True)`.  The first line resolves
the symbolic chain to the ultimate reference location; the access
`value.value` then raises `AttributeError` when `value` is a plain string,
the `assert value.value` trips when the field is `None` or empty, and
otherwise the (possibly `ref: `-marked) contents are written to the resolved
reference file. -/
def update_ref (refs : Refs) (fuel : Nat) (ref : String) (value : PyVal)
    (deref : Bool) : PyOutcome Refs :=
  match get_ref_internal refs fuel ref deref with
  | none => .fuelOut
  | some r =>
    match value with
    | .str _ => .error "AttributeError"
    | .refv rv =>
      match rv.value with
      | none => .error "AssertionError"
      | some v =>
        if v = "" then .error "AssertionError"
        else
          let contents := if rv.symbolic then "ref: " ++ v else v
          .ok (fun n => if n = r.1 then some contents else refs n)

/-- A nonempty string whose first and last characters are not whitespace
(such a string is invariant under `pyStrip`). -/
def noEdgeSpace (s : String) : Bool :=
  match s.data.head?, s.data.getLast? with
  | some c, some d => !pySpace c && !pySpace d
  | _, _ => false

theorem dropWhile_pySpace_of_head (c : Char) (t : List Char)
    (h : pySpace c = false) : (c :: t).dropWhile pySpace = c :: t := by
  simp [List.dropWhile, h]

theorem pyStrip_of_noEdgeSpace (s : String) (h : noEdgeSpace s = true) :
    pyStrip s = s := by
  unfold noEdgeSpace at h
  match hh : s.data.head?, hl : s.data.getLast? with
  | none, _ => rw [hh] at h; simp at h
  | some c, none => rw [hh, hl] at h; simp at h
  | some c, some d =>
    rw [hh, hl] at h
    simp only [Bool.and_eq_true, Bool.not_eq_true'] at h
    obtain ⟨t, ht⟩ : ∃ t, s.data = c :: t := by
      cases hs : s.data with
      | nil => rw [hs] at hh; simp at hh
      | cons a b => rw [hs] at hh; simp at hh; exact ⟨b, by rw [hh]⟩
    obtain ⟨r, hr⟩ : ∃ r, s.data.reverse = d :: r := by
      have : s.data.reverse.head? = some d := by
        rw [List.head?_reverse, hl]
      cases hs : s.data.reverse with
      | nil => rw [hs] at this; simp at this
      | cons a b => rw [hs] at this; simp at this; exact ⟨b, by rw [this]⟩
    unfold pyStrip
    rw [ht, dropWhile_pySpace_of_head c t h.1, ← ht, hr,
      dropWhile_pySpace_of_head d r h.2, ← hr, List.reverse_reverse]

theorem pyStrip_cons_space (l : List Char) :
    pyStrip ⟨' ' :: l⟩ = pyStrip ⟨l⟩ := by
  unfold pyStrip
  simp [List.dropWhile, pySpace]

theorem noEdgeSpace_ne_empty (s : String) (h : noEdgeSpace s = true) :
    s ≠ "" := by
  intro he
  rw [he] at h
  simp [noEdgeSpace] at h

theorem data_refMarker (B : String) :
    ("ref: " ++ B).data = ['r', 'e', 'f'] ++ ':' :: (' ' :: B.data) := by
  have : ("ref: " ++ B).data = "ref: ".data ++ B.data := String.data_append _ _
  rw [this]
  rfl

theorem pyStartsWith_refMarker (B : String) :
    pyStartsWith ("ref: " ++ B) "ref:" = true := by
  unfold pyStartsWith
  rw [data_refMarker]
  simp [listStarts]

theorem pySplitFirstAfter_refMarker (B : String) :
    pySplitFirstAfter ("ref: " ++ B) ':' = ⟨' ' :: B.data⟩ := by
  unfold pySplitFirstAfter
  rw [data_refMarker, dropWhile_ne_append _ _ _ (by decide), List.tail_cons]

theorem refMarker_ne_empty (B : String) : (("ref: " ++ B) != "") = true := by
  simp only [bne_iff_ne, ne_eq]
  intro h
  have := congrArg String.data h
  rw [data_refMarker] at this
  simp at this

theorem noEdgeSpace_refMarker (B : String) (h : noEdgeSpace B = true) :
    noEdgeSpace ("ref: " ++ B) = true := by
  unfold noEdgeSpace at h ⊢
  match hh : B.data.head?, hl : B.data.getLast? with
  | none, _ => rw [hh] at h; simp at h
  | some c, none => rw [hh, hl] at h; simp at h
  | some c, some d =>
    rw [hh, hl] at h
    have hne : B.data ≠ [] := by
      intro he; rw [he] at hh; simp at hh
    have h1 : ("ref: " ++ B).data.head? = some 'r' := by
      rw [data_refMarker]; rfl
    have h2 : ("ref: " ++ B).data.getLast? = some d := by
      rw [data_refMarker]
      have : (['r', 'e', 'f'] ++ ':' :: (' ' :: B.data))
          = (['r', 'e', 'f', ':', ' '] ++ B.data) := by simp
      rw [this, List.getLast?_append_of_ne_nil _ hne, hl]
    rw [h1, h2]
    simp only [Bool.and_eq_true, Bool.not_eq_true'] at h ⊢
    exact ⟨by decide, h.2⟩


theorem get_ref_internal_absent (refs : Refs) (fuel : Nat) (name : String)
    (deref : Bool) (h : refs name = none) :
    get_ref_internal refs (fuel + 1) name deref = some (name, ⟨false, none⟩) := by
  unfold get_ref_internal
  rw [h]
  simp

theorem get_ref_internal_direct (refs : Refs) (fuel : Nat) (N addr : String)
    (deref : Bool) (hN : refs N = some addr) (h1 : noEdgeSpace addr = true)
    (h2 : pyStartsWith addr "ref:" = false) :
    get_ref_internal refs (fuel + 1) N deref = some (N, ⟨false, some addr⟩) := by
  unfold get_ref_internal
  rw [hN]
  simp only [Option.map_some', pyStrip_of_noEdgeSpace addr h1, h2,
    Bool.and_false, if_neg Bool.false_ne_true]

theorem get_ref_internal_symbolic (refs : Refs) (fuel : Nat) (A B : String)
    (deref : Bool) (hA : refs A = some ("ref: " ++ B))
    (hB : noEdgeSpace B = true) :
    get_ref_internal refs (fuel + 1) A deref =
      if deref then get_ref_internal refs fuel B true
      else some (A, ⟨true, some B⟩) := by
  have htarget :
      pyStrip (pySplitFirstAfter ("ref: " ++ B) ':') = B := by
    rw [pySplitFirstAfter_refMarker, pyStrip_cons_space]
    exact pyStrip_of_noEdgeSpace B hB
  conv_lhs => unfold get_ref_internal
  rw [hA]
  simp only [Option.map_some', pyStrip_of_noEdgeSpace _ (noEdgeSpace_refMarker B hB),
    refMarker_ne_empty, pyStartsWith_refMarker, Bool.and_self,
    Option.getD_some, htarget, if_true]

/-- C7: a direct reference resolves to its stored address; a two-level
symbolic chain `A -> B -> addr` resolves fully to `addr` under `deref=True`
and only to `B` (tagged symbolic) under `deref=False`; an absent reference
yields the "not found" record `RefValue(symbolic=False, value=None)` rather
than an error. -/
theorem C7_reference_chains (refs : Refs) (A B M N addr addr2 : String)
    (fuel : Nat)
    (hA : refs A = some ("ref: " ++ B))
    (hB : refs B = some addr)
    (hN : refs N = some addr2)
    (hM : refs M = none)
    (haddr1 : noEdgeSpace addr = true)
    (haddr2 : pyStartsWith addr "ref:" = false)
    (haddr3 : noEdgeSpace addr2 = true)
    (haddr4 : pyStartsWith addr2 "ref:" = false)
    (hBn : noEdgeSpace B = true) :
    (∀ deref, get_ref refs (fuel + 1) N deref = some ⟨false, some addr2⟩)
    ∧ get_ref refs (fuel + 2) A true = some ⟨false, some addr⟩
    ∧ get_ref refs (fuel + 2) A false = some ⟨true, some B⟩
    ∧ (∀ deref, get_ref refs (fuel + 1) M deref = some ⟨false, none⟩) := by
  refine ⟨fun deref => ?_, ?_, ?_, fun deref => ?_⟩
  · rw [get_ref, get_ref_internal_direct refs fuel N addr2 deref hN haddr3 haddr4]
    rfl
  · rw [get_ref, get_ref_internal_symbolic refs (fuel + 1) A B true hA hBn,
      if_pos rfl, get_ref_internal_direct refs fuel B addr true hB haddr1 haddr2]
    rfl
  · rw [get_ref, get_ref_internal_symbolic refs (fuel + 1) A B false hA hBn]
    rfl
  · rw [get_ref, get_ref_internal_absent refs fuel M deref hM]
    rfl

theorem C7_reference_chains_witness :
    (fun r : String => if r = "A" then some ("ref: " ++ "B")
      else if r = "B" then some "beef" else if r = "N" then some "cafe"
      else none) "A" = some ("ref: " ++ "B")
    ∧ get_ref (fun r : String => if r = "A" then some ("ref: " ++ "B")
        else if r = "B" then some "beef" else if r = "N" then some "cafe"
        else none) 2 "A" true = some ⟨false, some "beef"⟩
    ∧ get_ref (fun r : String => if r = "A" then some ("ref: " ++ "B")
        else if r = "B" then some "beef" else if r = "N" then some "cafe"
        else none) 2 "A" false = some ⟨true, some "B"⟩
    ∧ get_ref (fun r : String => if r = "A" then some ("ref: " ++ "B")
        else if r = "B" then some "beef" else if r = "N" then some "cafe"
        else none) 1 "M" true = some ⟨false, none⟩ := by
  have h := C7_reference_chains
    (fun r : String => if r = "A" then some ("ref: " ++ "B")
      else if r = "B" then some "beef" else if r = "N" then some "cafe"
      else none)
    "A" "B" "M" "N" "beef" "cafe" 0
    (by decide) (by decide) (by decide) (by decide)
    (by decide) (by decide) (by decide) (by decide) (by decide)
  exact ⟨by decide, h.2.1, h.2.2.1, h.2.2.2 true⟩

/-- C10: for an absent reference file, `get_ref` (either `deref` setting)
returns the ordinary record `RefValue(symbolic=False, value=None)` instead of
failing or returning a distinguished absent result, and every `RefValue` is
truthy (a namedtuple is a tuple of length 2), so a caller testing the record
itself for truth cannot tell an absent reference from a present one. -/
theorem C10_absent_ref_truthy (refs : Refs) (name : String) (fuel : Nat)
    (deref : Bool) (h : refs name = none) :
    get_ref refs (fuel + 1) name deref = some ⟨false, none⟩
    ∧ (RefValue.mk false none).pyTruthy = true
    ∧ ∀ r : RefValue, r.pyTruthy = true := by
  refine ⟨?_, rfl, fun r => rfl⟩
  rw [get_ref, get_ref_internal_absent refs fuel name deref h]
  rfl

theorem C10_absent_ref_truthy_witness :
    (fun _ : String => (none : Option String)) "HEAD" = none
    ∧ get_ref (fun _ => none) 1 "HEAD" true = some ⟨false, none⟩ :=
  ⟨rfl, (C10_absent_ref_truthy (fun _ => none) "HEAD" 0 true rfl).1⟩

/-- Python `path.split(sep)` (full split on every occurrence), on character
lists; `"".split(sep)` is `[""]`. -/
def pySplitSepList (sep : Char) : List Char → List (List Char)
  | [] => [[]]
  | c :: t =>
    if c = sep then [] :: pySplitSepList sep t
    else
      match pySplitSepList sep t with
      | [] => [[c]]
      | h :: r => (c :: h) :: r

/-- base.py `is_ignored(path)`: some `/`-separated component of the path
equals `.git-clone`. -/
def is_ignored (path : String) : Bool :=
  (pySplitSepList '/' path.data).any (fun comp => comp == ".git-clone".data)

/-- A working-directory entry for the snapshot model: a regular file with
its byte contents, or a subdirectory with its named children in filesystem
enumeration order.  (Symbolic links and other kinds do not occur: base.py
only handles `entry.is_file` and `entry.is_dir`.) -/
inductive FSEntry where
  | file : String → FSEntry
  | dir : List (String × FSEntry) → FSEntry

/-- The sort key of a `(name, oid, type_)` tuple: Python compares tuples of
strings lexicographically, character comparison being by code point, which
is exactly Lean's linear order on `String`. -/
def entryKey (t : String × String × String) : Lex (String × Lex (String × String)) :=
  toLex (t.1, toLex (t.2.1, t.2.2))

/-- The Python tuple order `(name, oid, type_) <= (name, oid, type_)` used by
`sorted(entries)` in `write_tree`. -/
def entryLE (a b : String × String × String) : Prop := entryKey a ≤ entryKey b

instance : DecidableRel entryLE := fun a b =>
  inferInstanceAs (Decidable (entryKey a ≤ entryKey b))

instance : IsTotal (String × String × String) entryLE :=
  ⟨fun a b => le_total (entryKey a) (entryKey b)⟩

instance : IsTrans (String × String × String) entryLE :=
  ⟨fun _ _ _ h1 h2 => le_trans h1 h2⟩

theorem entryKey_injective : Function.Injective entryKey := by
  intro a b h
  unfold entryKey at h
  have h1 := congrArg (fun x => (ofLex x).1) h
  have h2 := congrArg (fun x => (ofLex (ofLex x).2).1) h
  have h3 := congrArg (fun x => (ofLex (ofLex x).2).2) h
  simp only at h1 h2 h3
  exact Prod.ext h1 (Prod.ext h2 h3)

instance : IsAntisymm (String × String × String) entryLE :=
  ⟨fun a b h1 h2 => entryKey_injective (le_antisymm h1 h2)⟩

/-- The tree payload built by `write_tree`:
`"".join(f"{type_} {oid} {name}\n" for name, oid, type_ in sorted(entries))`. -/
def serializeEntries (es : List (String × String × String)) : String :=
  String.join (es.map (fun t => t.2.2 ++ " " ++ t.2.1 ++ " " ++ t.1 ++ "\n"))

mutual
/-- One iteration of the scandir loop in base.py `write_tree`: a regular
file is stored as a `blob` object, a subdirectory is recursed into; the
result is the updated store and the `(oid, type_)` pair recorded for the
entry. -/
def writeEntry (hash : String → String) (store : Store) :
    FSEntry → Store × String × String
  | .file c =>
    let r := hash_object hash store c "blob"
    (r.1, r.2, "blob")
  | .dir l =>
    let r := write_tree hash store l
    (r.1, r.2, "tree")
termination_by e => (sizeOf e, 0)

/-- The scandir loop of base.py `write_tree`: builds the `(name, oid,
type_)` triples in enumeration order, threading the store through the
object writes.  Entries whose name is the metadata root are skipped: for a
snapshot rooted outside `.git-clone`, `is_ignored(f"{directory}/{name}")`
holds exactly when the entry's own name makes it ignored, since scandir
names contain no `/`. -/
def writeEntries (hash : String → String) (store : Store) :
    List (String × FSEntry) → Store × List (String × String × String)
  | [] => (store, [])
  | (name, e) :: rest =>
    if is_ignored name then writeEntries hash store rest
    else
      let r1 := writeEntry hash store e
      let r2 := writeEntries hash r1.1 rest
      (r2.1, (name, r1.2.1, r1.2.2) :: r2.2)
termination_by l => (sizeOf l, 1)

/-- base.py `write_tree(directory)`: collects the entries, sorts them as
Python tuples, serializes one `"<type> <oid> <name>\n"` line per entry and
stores the payload as a `tree` object, returning its address. -/
def write_tree (hash : String → String) (store : Store)
    (l : List (String × FSEntry)) : Store × String :=
  let r := writeEntries hash store l
  hash_object hash r.1 (serializeEntries (List.insertionSort entryLE r.2)) "tree"
termination_by (sizeOf l, 2)
end

mutual
/-- Pure view of `writeEntry`: the `(oid, type_)` pair it records (the
digest of a stored object does not depend on the store being written to). -/
def entryMeta (hash : String → String) : FSEntry → String × String
  | .file c => (hash ("blob" ++ "\x00" ++ c), "blob")
  | .dir l => (treeOid hash l, "tree")
termination_by e => (sizeOf e, 0)

/-- Pure view of `writeEntries`: the `(name, oid, type_)` triples in
enumeration order. -/
def triplesOf (hash : String → String) :
    List (String × FSEntry) → List (String × String × String)
  | [] => []
  | (name, e) :: rest =>
    if is_ignored name then triplesOf hash rest
    else (name, (entryMeta hash e).1, (entryMeta hash e).2) :: triplesOf hash rest
termination_by l => (sizeOf l, 1)

/-- Pure view of `write_tree`: the address of the serialized tree. -/
def treeOid (hash : String → String) (l : List (String × FSEntry)) : String :=
  hash ("tree" ++ "\x00" ++
    serializeEntries (List.insertionSort entryLE (triplesOf hash l)))
termination_by (sizeOf l, 2)
end

mutual
theorem writeEntry_snd (hash : String → String) (store : Store) (e : FSEntry) :
    (writeEntry hash store e).2 = entryMeta hash e := by
  match e with
  | .file c => simp [writeEntry, entryMeta, hash_object]
  | .dir l =>
    have h := write_tree_snd hash store l
    simp [writeEntry, entryMeta, h]
termination_by (sizeOf e, 0)

theorem writeEntries_snd (hash : String → String) (store : Store)
    (l : List (String × FSEntry)) :
    (writeEntries hash store l).2 = triplesOf hash l := by
  match l with
  | [] => simp [writeEntries, triplesOf]
  | (name, e) :: rest =>
    by_cases hig : is_ignored name
    · have h := writeEntries_snd hash store rest
      simp [writeEntries, triplesOf, hig, h]
    · have h1 := writeEntry_snd hash store e
      have h2 := writeEntries_snd hash (writeEntry hash store e).1 rest
      simp [writeEntries, triplesOf, hig, h1, h2]
termination_by (sizeOf l, 1)

theorem write_tree_snd (hash : String → String) (store : Store)
    (l : List (String × FSEntry)) :
    (write_tree hash store l).2 = treeOid hash l := by
  have h := writeEntries_snd hash store l
  simp [write_tree, treeOid, hash_object, h]
termination_by (sizeOf l, 2)
end

theorem insertionSort_congr_perm {l1 l2 : List (String × String × String)}
    (h : List.Perm l1 l2) :
    List.insertionSort entryLE l1 = List.insertionSort entryLE l2 :=
  List.eq_of_perm_of_sorted
    ((List.perm_insertionSort _ _).trans (h.trans (List.perm_insertionSort _ _).symm))
    (List.sorted_insertionSort _ _) (List.sorted_insertionSort _ _)

theorem triplesOf_append (hash : String → String)
    (a b : List (String × FSEntry)) :
    triplesOf hash (a ++ b) = triplesOf hash a ++ triplesOf hash b := by
  induction a with
  | nil => simp [triplesOf]
  | cons x rest ih =>
    obtain ⟨name, e⟩ := x
    by_cases hig : is_ignored name <;> simp [triplesOf, hig, ih]

theorem triplesOf_swap (hash : String → String) (x y : String × FSEntry)
    (l2 : List (String × FSEntry)) :
    List.Perm (triplesOf hash (x :: y :: l2)) (triplesOf hash (y :: x :: l2)) := by
  obtain ⟨nx, ex⟩ := x
  obtain ⟨ny, ey⟩ := y
  by_cases h1 : is_ignored nx <;> by_cases h2 : is_ignored ny <;>
    simp [triplesOf, h1, h2]
  exact List.Perm.swap _ _ _

/-- Recursive reordering of a directory tree: the target has the same
(name, content) sets at every level, with the enumeration order of the
children arbitrarily permuted (adjacent transpositions generate every
permutation; `entry` rewrites below a child). -/
inductive TreeEq : FSEntry → FSEntry → Prop where
  | refl (e : FSEntry) : TreeEq e e
  | trans {a b c : FSEntry} : TreeEq a b → TreeEq b c → TreeEq a c
  | swap (l1 : List (String × FSEntry)) (x y : String × FSEntry)
      (l2 : List (String × FSEntry)) :
      TreeEq (.dir (l1 ++ x :: y :: l2)) (.dir (l1 ++ y :: x :: l2))
  | entry (l1 : List (String × FSEntry)) (n : String) (a b : FSEntry)
      (l2 : List (String × FSEntry)) : TreeEq a b →
      TreeEq (.dir (l1 ++ (n, a) :: l2)) (.dir (l1 ++ (n, b) :: l2))

theorem TreeEq_entryMeta (hash : String → String) {a b : FSEntry}
    (h : TreeEq a b) : entryMeta hash a = entryMeta hash b := by
  induction h with
  | refl e => rfl
  | trans h1 h2 ih1 ih2 => exact ih1.trans ih2
  | swap l1 x y l2 =>
    have hperm : List.Perm (triplesOf hash (l1 ++ x :: y :: l2))
        (triplesOf hash (l1 ++ y :: x :: l2)) := by
      rw [triplesOf_append, triplesOf_append]
      exact List.Perm.append_left _ (triplesOf_swap hash x y l2)
    simp [entryMeta, treeOid, insertionSort_congr_perm hperm]
  | entry l1 n x y l2 hab ih =>
    have heq : triplesOf hash (l1 ++ (n, x) :: l2)
        = triplesOf hash (l1 ++ (n, y) :: l2) := by
      rw [triplesOf_append, triplesOf_append]
      by_cases hig : is_ignored n <;> simp [triplesOf, hig, ih]
    simp [entryMeta, treeOid, heq]

/-- C8: `write_tree` produces the same tree address for two directories with
identical (name, content) sets regardless of the filesystem enumeration
order at any level (and of the store written into), because the serialized
tree is the canonical entry list sorted by name (as a Python tuple sort). -/
theorem C8_tree_order_independence (hash : String → String) (s1 s2 : Store)
    (d1 d2 : List (String × FSEntry)) (h : TreeEq (.dir d1) (.dir d2)) :
    (write_tree hash s1 d1).2 = (write_tree hash s2 d2).2 := by
  have hm := TreeEq_entryMeta hash h
  rw [write_tree_snd, write_tree_snd]
  have : (entryMeta hash (.dir d1)).1 = (entryMeta hash (.dir d2)).1 := by
    rw [hm]
  simpa [entryMeta] using this

theorem C8_tree_order_independence_witness :
    TreeEq (.dir [("a", .file "x"), ("b", .file "y")])
        (.dir [("b", .file "y"), ("a", .file "x")])
    ∧ (write_tree (fun s => s) (fun _ => none)
        [("a", FSEntry.file "x"), ("b", FSEntry.file "y")]).2
      = (write_tree (fun s => s) (fun _ => none)
        [("b", FSEntry.file "y"), ("a", FSEntry.file "x")]).2 := by
  have h : TreeEq (.dir [("a", FSEntry.file "x"), ("b", FSEntry.file "y")])
      (.dir [("b", FSEntry.file "y"), ("a", FSEntry.file "x")]) :=
    TreeEq.swap [] ("a", FSEntry.file "x") ("b", FSEntry.file "y") []
  exact ⟨h, C8_tree_order_independence (fun s => s) (fun _ => none) (fun _ => none)
    [("a", FSEntry.file "x"), ("b", FSEntry.file "y")]
    [("b", FSEntry.file "y"), ("a", FSEntry.file "x")] h⟩

/-- Python `str.splitlines()` restricted to strings whose only line-break
character is `\n` (payloads here never contain the other break characters):
splits at every newline, a final trailing newline producing no extra empty
line. -/
def pySplitLinesList : List Char → List (List Char)
  | [] => []
  | c :: t =>
    if c = '\n' then [] :: pySplitLinesList t
    else
      match pySplitLinesList t with
      | [] => [[c]]
      | h :: r => (c :: h) :: r

/-- `s.splitlines()` as strings. -/
def pySplitLines (s : String) : List String :=
  (pySplitLinesList s.data).map String.mk

/-- Python `type_, oid, name = entry.split(" ", 2)`: `none` models the
`ValueError` raised when the line has fewer than three space-separated
parts; otherwise the part before the first space, the part between the
first and second spaces, and everything after the second space. -/
def pySplit2 (s : String) : Option (String × String × String) :=
  match s.data.dropWhile (· != ' ') with
  | [] => none
  | _ :: r1 =>
    match r1.dropWhile (· != ' ') with
    | [] => none
    | _ :: r2 =>
      some (⟨s.data.takeWhile (· != ' ')⟩, ⟨r1.takeWhile (· != ' ')⟩, ⟨r2⟩)

/-- Python `d[k] = v` on an insertion-ordered dict modelled as an
association list: replace in place when the key exists, append otherwise. -/
def dictInsert (d : List (String × String)) (k v : String) :
    List (String × String) :=
  if (d.lookup k).isSome then d.map (fun p => if p.1 = k then (k, v) else p)
  else d ++ [(k, v)]

/-- Python `d.update(m)`: assign every binding of `m` in order. -/
def dictUpdate (d m : List (String × String)) : List (String × String) :=
  m.foldl (fun acc p => dictInsert acc p.1 p.2) d

/-- The entry loop of base.py `get_tree` (with `_iter_tree_entries`
inlined): parse each line with `split(" ", 2)`, check the name invariants,
record blob entries, and merge the recursive expansion of tree entries
(`rec` is the recursive `get_tree` call at the next fuel level). -/
def get_tree_go (rec : String → String → PyOutcome (List (String × String))) :
    List String → String → List (String × String) →
      PyOutcome (List (String × String))
  | [], _, acc => .ok acc
  | line :: rest, base_path, acc =>
    match pySplit2 line with
    | none => .error "ValueError"
    | some (ty, oid, name) =>
      if '/' ∈ name.data then .error "AssertionError"
      else if name = ".." ∨ name = "." then .error "AssertionError"
      else
        let path := base_path ++ name
        if ty = "blob" then get_tree_go rec rest base_path (dictInsert acc path oid)
        else if ty = "tree" then
          match rec oid (path ++ "/") with
          | .ok sub => get_tree_go rec rest base_path (dictUpdate acc sub)
          | .error e => .error e
          | .fuelOut => .fuelOut
        else .error "AssertionError"

/-- base.py `get_tree(oid, base_path)`: recursively expands a tree object
into the flat mapping from full relative file path to blob address.  A
falsy (empty) oid yields no entries (`if not oid: return` in
`_iter_tree_entries`); otherwise the payload is loaded as a `tree` object
and processed line by line. -/
def get_tree (store : Store) : Nat → String → String →
    PyOutcome (List (String × String))
  | 0, _, _ => .fuelOut
  | fuel + 1, oid, base_path =>
    if oid = "" then .ok []
    else
      match get_object store oid (some "tree") with
      | .error e => .error e
      | .fuelOut => .fuelOut
      | .ok tree =>
        get_tree_go (fun o b => get_tree store fuel o b)
          (pySplitLines tree) base_path []

/-- A `(type_, oid, name)` triple that trips one of the `assert`s of
`get_tree`: a kind other than `blob`/`tree`, or a name that is `.`, `..`,
or contains a path separator. -/
def badTreeEntry (t : String × String × String) : Prop :=
  ¬(t.1 = "blob" ∨ t.1 = "tree") ∨ t.2.2 = "." ∨ t.2.2 = ".."
    ∨ '/' ∈ t.2.2.data

instance (t : String × String × String) : Decidable (badTreeEntry t) := by
  unfold badTreeEntry
  infer_instance

theorem get_tree_go_ne_ok (rec : String → String → PyOutcome (List (String × String)))
    (lines : List String) (base_path : String) (acc : List (String × String))
    (hbad : ∃ line ∈ lines, ∃ t, pySplit2 line = some t ∧ badTreeEntry t) :
    ∀ m, get_tree_go rec lines base_path acc ≠ .ok m := by
  induction lines generalizing acc with
  | nil => simp at hbad
  | cons line rest ih =>
    intro m
    obtain ⟨bl, hmem, t, hsplit, hb⟩ := hbad
    simp only [List.mem_cons] at hmem
    show get_tree_go rec (line :: rest) base_path acc ≠ .ok m
    rw [get_tree_go]
    rcases hmem with hmem | hmem
    · subst hmem
      rw [hsplit]
      obtain ⟨ty, oid, name⟩ := t
      rcases hb with hty | hdot | hdotdot | hsep
      · by_cases h1 : '/' ∈ name.data
        · simp [h1]
        · by_cases h2 : name = ".." ∨ name = "."
          · simp [h1, h2]
          · push_neg at hty
            simp [h1, h2, hty.1, hty.2]
      · have hdot2 : name = "." := hdot
        by_cases h1 : '/' ∈ name.data
        · simp [h1]
        · simp [h1, hdot2]
      · have hdotdot2 : name = ".." := hdotdot
        by_cases h1 : '/' ∈ name.data
        · simp [h1]
        · simp [h1, hdotdot2]
      · have hsep2 : '/' ∈ name.data := hsep
        simp [hsep2]
    · have hrest : ∃ line ∈ rest, ∃ t, pySplit2 line = some t ∧ badTreeEntry t :=
        ⟨bl, hmem, t, hsplit, hb⟩
      match hsplit2 : pySplit2 line with
      | none => simp
      | some (ty, oid, name) =>
        by_cases h1 : '/' ∈ name.data
        · simp [h1]
        · by_cases h2 : name = ".." ∨ name = "."
          · simp [h1, h2]
          · simp only [h1, h2, if_false]
            by_cases h3 : ty = "blob"
            · simp only [h3, if_pos rfl]
              exact ih _ hrest m
            · simp only [h3, if_false]
              by_cases h4 : ty = "tree"
              · simp only [h4, if_pos rfl]
                match rec oid (base_path ++ name ++ "/") with
                | .ok sub => exact ih _ hrest m
                | .error e => simp
                | .fuelOut => simp
              · simp [h4]

/-- C9: `get_tree` never succeeds on a tree object one of whose entries has
a kind other than `blob`/`tree` or a name that is `.`, `..`, or contains a
separator (the corresponding `assert` raises, or a failure earlier in the
entry list preempts it). -/
theorem C9_get_tree_malformed (store : Store) (fuel : Nat)
    (oid base_path payload : String) (hoid : oid ≠ "")
    (hobj : get_object store oid (some "tree") = .ok payload)
    (hbad : ∃ line ∈ pySplitLines payload,
      ∃ t, pySplit2 line = some t ∧ badTreeEntry t) :
    ∀ m, get_tree store fuel oid base_path ≠ .ok m := by
  intro m
  match fuel with
  | 0 => simp [get_tree]
  | fuel + 1 =>
    rw [get_tree, if_neg hoid, hobj]
    exact get_tree_go_ne_ok _ _ _ _ hbad m

theorem C9_get_tree_malformed_witness :
    ("T" : String) ≠ ""
    ∧ get_object
        (fun a => if a = "T" then some ("tree" ++ "\x00" ++ "spam x y\n") else none)
        "T" (some "tree") = .ok "spam x y\n"
    ∧ get_tree
        (fun a => if a = "T" then some ("tree" ++ "\x00" ++ "spam x y\n") else none)
        3 "T" "" ≠ .ok [] := by
  refine ⟨by decide, by decide, ?_⟩
  exact C9_get_tree_malformed _ 3 "T" "" "spam x y\n" (by decide) (by decide)
    ⟨"spam x y", by decide, ("spam", "x", "y"), by decide, by decide⟩ []

/-- Modelled from the spec: `iter_commits_and_parents` is missing from the
sources (cli.py's `log` and `k` commands call `base.iter_commits_and_parents`,
but base.py does not define it).  Following spec section 4.4 `ancestors`:
a worklist traversal over the commit graph starting from the given roots,
visiting each commit address at most once via a seen-set, and following each
commit's single parent link until it has none.  The commit graph is
abstracted as the map `parentOf` from a commit address to its optional
parent address (in the code, `get_commit(oid).parent`); `fuel` bounds the
loop, and `visited` is the seen-set accumulated so far. -/
def iter_commits_and_parents (parentOf : String → Option String) :
    Nat → List String → List String → List String
  | 0, _, _ => []
  | _ + 1, [], _ => []
  | fuel + 1, oid :: rest, visited =>
    if oid ∈ visited then iter_commits_and_parents parentOf fuel rest visited
    else
      oid :: iter_commits_and_parents parentOf fuel
        ((parentOf oid).toList ++ rest) (oid :: visited)

theorem iter_commits_nodup (parentOf : String → Option String) (fuel : Nat) :
    ∀ (work visited : List String),
      (iter_commits_and_parents parentOf fuel work visited).Nodup
      ∧ ∀ x ∈ iter_commits_and_parents parentOf fuel work visited,
          x ∉ visited := by
  induction fuel with
  | zero => intro work visited; simp [iter_commits_and_parents]
  | succ f ih =>
    intro work visited
    match work with
    | [] => simp [iter_commits_and_parents]
    | oid :: rest =>
      rw [iter_commits_and_parents]
      by_cases hmem : oid ∈ visited
      · simp only [hmem, if_true]
        exact ih rest visited
      · simp only [hmem, if_false]
        obtain ⟨hnd, hvis⟩ := ih ((parentOf oid).toList ++ rest) (oid :: visited)
        refine ⟨List.nodup_cons.2 ⟨fun hc => ?_, hnd⟩, ?_⟩
        · exact hvis oid hc (List.mem_cons_self _ _)
        · intro x hx
          simp only [List.mem_cons] at hx
          rcases hx with hx | hx
          · subst hx; exact hmem
          · intro hxv
            exact hvis x hx (List.mem_cons_of_mem _ hxv)

/-- C4: the ancestry traversal yields each commit address at most once (its
output is duplicate-free for every fuel, worklist and seen-set), and in
particular `ancestors({X, Y})` yields `X` exactly once, whatever commit
graph is behind (`Y`'s lineage may well pass through `X`). -/
theorem C4_ancestors_dedup (parentOf : String → Option String) (fuel : Nat)
    (X Y : String) (hfuel : 0 < fuel) :
    (∀ work visited,
      (iter_commits_and_parents parentOf fuel work visited).Nodup)
    ∧ List.count X (iter_commits_and_parents parentOf fuel [X, Y] []) = 1 := by
  refine ⟨fun work visited => (iter_commits_nodup parentOf fuel work visited).1, ?_⟩
  match fuel, hfuel with
  | f + 1, _ =>
    rw [iter_commits_and_parents]
    simp only [List.not_mem_nil, if_false]
    have hnd := (iter_commits_nodup parentOf (f + 1) [X, Y] []).1
    rw [iter_commits_and_parents] at hnd
    simp only [List.not_mem_nil, if_false] at hnd
    rw [List.count_cons_self]
    rw [List.count_eq_zero.2 (List.nodup_cons.1 hnd).1]

theorem C4_ancestors_dedup_witness :
    0 < 5 ∧ List.count "x"
      (iter_commits_and_parents (fun o => if o = "y" then some "x" else none)
        5 ["x", "y"] []) = 1 :=
  ⟨by decide,
    (C4_ancestors_dedup (fun o => if o = "y" then some "x" else none) 5 "x" "y"
      (by decide)).2⟩

/-- Python `key, value = line.split(" ", 1)`: `none` models the `ValueError`
when the line contains no space. -/
def pySplit1 (s : String) : Option (String × String) :=
  match s.data.dropWhile (· != ' ') with
  | [] => none
  | _ :: r => some (⟨s.data.takeWhile (· != ' ')⟩, ⟨r⟩)

/-- base.py: `Commit = namedtuple("Commit", ["tree", "parent", "message"])`. -/
structure Commit where
  tree : String
  parent : Option String
  message : String
deriving DecidableEq

/-- The header loop of base.py `get_commit`: one `key value` line per header
entry, `tree` and `parent` being the only recognized keys (any other key
trips `assert False`; `tree` stays unbound — modelled as `none` — if no
`tree` line occurs, making the final `Commit(tree, ...)` access raise
`UnboundLocalError`). -/
def get_commit_hdr (message : String) :
    List String → Option String → Option String → PyOutcome Commit
  | [], tree?, parent? =>
    match tree? with
    | none => .error "UnboundLocalError"
    | some t => .ok ⟨t, parent?, message⟩
  | line :: tl, tree?, parent? =>
    match pySplit1 line with
    | none => .error "ValueError"
    | some (key, value) =>
      if key = "tree" then get_commit_hdr message tl (some value) parent?
      else if key = "parent" then get_commit_hdr message tl tree? (some value)
      else .error "AssertionError"

/-- base.py `get_commit(oid)`: load the `commit` object, read header lines
up to the first blank line (`itertools.takewhile(operator.truth, lines)`
also consumes that blank line from the iterator), and join the remainder as
the message. -/
def get_commit (store : Store) (oid : String) : PyOutcome Commit :=
  match get_object store oid (some "commit") with
  | .error e => .error e
  | .fuelOut => .fuelOut
  | .ok commit =>
    let lines := pySplitLines commit
    let hdr := lines.takeWhile (· != "")
    let rest := lines.dropWhile (· != "")
    let message := String.intercalate "\n" rest.tail
    get_commit_hdr message hdr none none

/-- The commit payload built by base.py `commit(message)`:
`f"tree {write_tree()}\n"`, then — because `data.get_ref("HEAD")` returns a
`RefValue` namedtuple, which is always truthy — unconditionally
`f"parent {HEAD}\n"` interpolating the `RefValue`'s repr, then the blank
line and the message. -/
def commit_payload (treeOid : String) (HEAD : RefValue) (message : String) :
    String :=
  "tree " ++ treeOid ++ "\n"
    ++ (if HEAD.pyTruthy then "parent " ++ HEAD.pyRepr ++ "\n" else "")
    ++ "\n" ++ message ++ "\n"

/-- base.py `commit(message)`: snapshot the working directory with
`write_tree`, read `HEAD` via `data.get_ref` (a `RefValue`), build the
payload, store it as a `commit` object, then call
`data.update_ref("HEAD", oid)` with the plain string `oid`. -/
def commit (hash : String → String) (store : Store) (refs : Refs)
    (wd : List (String × FSEntry)) (message : String) (fuel : Nat) :
    PyOutcome (Store × Refs × String) :=
  let r := write_tree hash store wd
  match get_ref refs fuel "HEAD" true with
  | none => .fuelOut
  | some HEAD =>
    let r2 := hash_object hash r.1 (commit_payload r.2 HEAD message) "commit"
    match update_ref refs fuel "HEAD" (.str r2.2) true with
    | .ok refs2 => .ok (r2.1, refs2, r2.2)
    | .error e => .error e
    | .fuelOut => .fuelOut

/-- base.py `_empty_current_directory()`: remove every file of the working
directory that is not under the store's metadata root (the walk also
removes directories that become empty, which a flat file model does not
need to track; `os.path.isfile` holds for every modelled entry). -/
def empty_current_directory (wd : List (String × String)) :
    List (String × String) :=
  wd.filter (fun p => is_ignored p.1)

/-- The write-back loop of base.py `read_tree`: for each `(path, oid)` of
the flat mapping, write the blob's bytes (`data.get_object(oid)` with the
default `expected="blob"`) at `path`. -/
def read_tree_write (store : Store) :
    List (String × String) → List (String × String) →
      PyOutcome (List (String × String))
  | wd, [] => .ok wd
  | wd, (path, oid) :: rest =>
    match get_object store oid (some "blob") with
    | .ok content => read_tree_write store (dictInsert wd path content) rest
    | .error e => .error e
    | .fuelOut => .fuelOut

/-- base.py `read_tree(tree_oid)`: empty the working directory, expand the
tree with `get_tree(tree_oid, base_path="./")`, and write every blob. -/
def read_tree (store : Store) (wd : List (String × String)) (fuel : Nat)
    (tree_oid : String) : PyOutcome (List (String × String)) :=
  let wd1 := empty_current_directory wd
  match get_tree store fuel tree_oid "./" with
  | .ok m => read_tree_write store wd1 m
  | .error e => .error e
  | .fuelOut => .fuelOut

/-- base.py `checkout(oid)`: parse the commit named by the raw argument
(cli.py passes the user token through unresolved), materialize its tree,
then call `data.update_ref("HEAD", oid)` with the plain string `oid`. -/
def checkout (store : Store) (refs : Refs) (wd : List (String × String))
    (fuel : Nat) (oid : String) : PyOutcome (List (String × String) × Refs) :=
  match get_commit store oid with
  | .error e => .error e
  | .fuelOut => .fuelOut
  | .ok c =>
    match read_tree store wd fuel c.tree with
    | .error e => .error e
    | .fuelOut => .fuelOut
    | .ok wd2 =>
      match update_ref refs fuel "HEAD" (.str oid) true with
      | .ok refs2 => .ok (wd2, refs2)
      | .error e => .error e
      | .fuelOut => .fuelOut

/-- Python `string.hexdigits` membership. -/
def pyIsHexDigit (c : Char) : Bool :=
  "0123456789abcdefABCDEF".data.contains c

/-- The candidate loop of base.py `get_oid(name)` over `refs_to_try`,
followed by the 40-hex fallback and the final `assert False` (modelled in
the `[]` case).  `if data.get_ref(ref): return data.get_ref(ref)` tests the
truthiness of the returned `RefValue`. -/
def get_oid_go (refs : Refs) (fuel : Nat) (name : String) :
    List String → PyOutcome PyVal
  | [] =>
    let is_hex := name.data.all pyIsHexDigit
    if name.length == 40 && is_hex then .ok (.str name)
    else .error "AssertionError"
  | r :: rest =>
    match get_ref refs fuel r true with
    | none => .fuelOut
    | some rv =>
      if rv.pyTruthy then .ok (.refv rv) else get_oid_go refs fuel name rest

/-- base.py `get_oid(name)`: try the token as a literal reference path, then
under `refs/`, `refs/tags/`, `refs/heads/`; fall back to treating a 40-hex
token as a literal address, else `assert False`. -/
def get_oid (refs : Refs) (fuel : Nat) (name : String) : PyOutcome PyVal :=
  get_oid_go refs fuel name
    [name, "refs/" ++ name, "refs/tags/" ++ name, "refs/heads/" ++ name]

/-- C1 (code bug): at the first commit, with no `HEAD` file present,
`data.get_ref("HEAD")` returns `RefValue(symbolic=False, value=None)`, which
is truthy, so the payload gains the bogus line
`parent RefValue(symbolic=False, value=None)` instead of omitting the parent;
and `data.update_ref("HEAD", oid)` — called with a plain string where the
refactored data.py expects a `RefValue` — raises `AttributeError`, so `HEAD`
is never advanced and `commit` never returns the new address. -/
theorem C1_commit_first_bug :
    commit (fun s => s) (fun _ => none) (fun _ => none) [] "first" 3
      = .error "AttributeError"
    ∧ get_ref (fun _ => none) 3 "HEAD" true = some ⟨false, none⟩
    ∧ (write_tree (fun s => s) (fun _ => none) []).2 = "tree\x00"
    ∧ commit_payload "tree\x00" ⟨false, none⟩ "first"
      = "tree tree\x00\nparent RefValue(symbolic=False, value=None)\n\nfirst\n" := by
  refine ⟨rfl, by decide, ?_, by decide⟩
  rw [write_tree_snd]
  simp only [treeOid, triplesOf]
  decide

/-- C2 (code bug): `get_oid` tests the truthiness of the `RefValue` record
returned by `data.get_ref`, which is always truthy, so even in a store with
no references at all it returns the record
`RefValue(symbolic=False, value=None)` for the very first candidate instead
of ever reaching the 40-hex fallback (or failing): a 40-hex token is not
returned as a literal address. -/
theorem C2_get_oid_bug :
    get_oid (fun _ => none) 2 "aaaaaaaaaaaaaaaaaaaaaaaaaaaaaaaaaaaaaaaa"
      = .ok (.refv ⟨false, none⟩)
    ∧ ("aaaaaaaaaaaaaaaaaaaaaaaaaaaaaaaaaaaaaaaa" : String).length = 40
    ∧ (∀ c ∈ ("aaaaaaaaaaaaaaaaaaaaaaaaaaaaaaaaaaaaaaaa" : String).data,
        pyIsHexDigit c = true)
    ∧ PyOutcome.ok (PyVal.refv ⟨false, none⟩)
        ≠ .ok (.str "aaaaaaaaaaaaaaaaaaaaaaaaaaaaaaaaaaaaaaaa") :=
  ⟨by decide, by decide, by decide, by decide⟩

/-- C3 (code bug): checking out an existing commit by its 40-hex address
parses the commit, and its tree does materialize (shown separately through
`read_tree`), but the final `data.update_ref("HEAD", oid)` call passes the
plain string `oid` and raises `AttributeError`: `HEAD` is never rebound,
detached or otherwise. -/
theorem C3_checkout_bug :
    checkout
      (fun a => if a = "aaaaaaaaaaaaaaaaaaaaaaaaaaaaaaaaaaaaaaaa"
          then some ("commit" ++ "\x00" ++ "tree T\n\nmsg\n")
        else if a = "T" then some ("tree" ++ "\x00" ++ "blob B a.txt\n")
        else if a = "B" then some ("blob" ++ "\x00" ++ "hello") else none)
      (fun _ => none) [] 3 "aaaaaaaaaaaaaaaaaaaaaaaaaaaaaaaaaaaaaaaa"
      = .error "AttributeError"
    ∧ get_commit
        (fun a => if a = "aaaaaaaaaaaaaaaaaaaaaaaaaaaaaaaaaaaaaaaa"
            then some ("commit" ++ "\x00" ++ "tree T\n\nmsg\n")
          else if a = "T" then some ("tree" ++ "\x00" ++ "blob B a.txt\n")
          else if a = "B" then some ("blob" ++ "\x00" ++ "hello") else none)
        "aaaaaaaaaaaaaaaaaaaaaaaaaaaaaaaaaaaaaaaa" = .ok ⟨"T", none, "msg"⟩
    ∧ read_tree
        (fun a => if a = "aaaaaaaaaaaaaaaaaaaaaaaaaaaaaaaaaaaaaaaa"
            then some ("commit" ++ "\x00" ++ "tree T\n\nmsg\n")
          else if a = "T" then some ("tree" ++ "\x00" ++ "blob B a.txt\n")
          else if a = "B" then some ("blob" ++ "\x00" ++ "hello") else none)
        [] 3 "T" = .ok [("./a.txt", "hello")] :=
  ⟨rfl, by decide, by decide⟩

/-- The characters at which Python `str.splitlines()` breaks lines. -/
def pyLineBreak (c : Char) : Bool :=
  c = '\n' || c = '\r' || c = '\x0b' || c = '\x0c' || c = '\x1c' ||
    c = '\x1d' || c = '\x1e' || c = '\x85' || c = '\u2028' || c = '\u2029'

/-- A well-formed file or directory name, as every real filesystem entry
snapshot by `write_tree` has: nonempty, not the dot entries, no path
separator, and no line-break character (a name with a line break would
corrupt the line-oriented tree payload). -/
def validNameB (n : String) : Bool :=
  n != "" && n != "." && n != ".." && !decide ('/' ∈ n.data) &&
    n.data.all (fun c => !pyLineBreak c)

/-- A well-formed digest string: nonempty and free of spaces and line
breaks, as every hex digest is (the digest is the middle field of the
space-separated tree entry line). -/
def goodDigestB (o : String) : Bool :=
  o != "" && o.data.all (fun c => c != ' ' && !pyLineBreak c)

mutual
/-- Well-formedness of a snapshot source: every name valid and the names of
each directory pairwise distinct (scandir yields each name once). -/
def validEntry : FSEntry → Bool
  | .file _ => true
  | .dir l => validEntries l && decide ((l.map Prod.fst).Nodup)
termination_by e => (sizeOf e, 0)

def validEntries : List (String × FSEntry) → Bool
  | [] => true
  | (n, e) :: rest => validNameB n && validEntry e && validEntries rest
termination_by l => (sizeOf l, 1)
end

mutual
/-- Nesting depth of an entry (a file has depth 0). -/
def entryDepth : FSEntry → Nat
  | .file _ => 0
  | .dir l => dirDepth l + 1
termination_by e => (sizeOf e, 0)

/-- Nesting depth of a directory body. -/
def dirDepth : List (String × FSEntry) → Nat
  | [] => 0
  | (_, e) :: rest => max (entryDepth e) (dirDepth rest)
termination_by l => (sizeOf l, 1)
end

/-- The flat `(path, contents)` view of a directory: what materializing its
snapshot should leave in the working directory.  Mirrors `write_tree`'s
skipping of the metadata root and `get_tree`'s `base_path` prefixing. -/
def flatten (base : String) : List (String × FSEntry) → List (String × String)
  | [] => []
  | (n, .file c) :: rest =>
    if is_ignored n then flatten base rest
    else (base ++ n, c) :: flatten base rest
  | (n, .dir l) :: rest =>
    if is_ignored n then flatten base rest
    else flatten (base ++ n ++ "/") l ++ flatten base rest
termination_by l => sizeOf l

/-- The flat `(path, blob address)` view of a directory: what `get_tree`
recovers from the stored snapshot (up to traversal order). -/
def flattenOids (hash : String → String) (base : String) :
    List (String × FSEntry) → List (String × String)
  | [] => []
  | (n, .file c) :: rest =>
    if is_ignored n then flattenOids hash base rest
    else (base ++ n, hash ("blob" ++ "\x00" ++ c)) :: flattenOids hash base rest
  | (n, .dir l) :: rest =>
    if is_ignored n then flattenOids hash base rest
    else flattenOids hash (base ++ n ++ "/") l ++ flattenOids hash base rest
termination_by l => sizeOf l

/-- The `(path, blob address)` block contributed by one (non-ignored)
directory entry. -/
def entryBlock (hash : String → String) (base : String) :
    String × FSEntry → List (String × String)
  | (n, .file c) => [(base ++ n, hash ("blob" ++ "\x00" ++ c))]
  | (n, .dir l) => flattenOids hash (base ++ n ++ "/") l

mutual
/-- The tagged objects `writeEntry` stores for one entry (for a directory:
its descendants' objects and then its own tree object). -/
def entryObjs (hash : String → String) : FSEntry → List String
  | .file c => ["blob" ++ "\x00" ++ c]
  | .dir l =>
    dirObjs hash l ++
      ["tree" ++ "\x00" ++
        serializeEntries (List.insertionSort entryLE (triplesOf hash l))]
termination_by e => (sizeOf e, 0)

/-- The tagged objects `writeEntries` stores for a directory body (ignored
entries are skipped before any write). -/
def dirObjs (hash : String → String) : List (String × FSEntry) → List String
  | [] => []
  | (n, e) :: rest =>
    (if is_ignored n then [] else entryObjs hash e) ++ dirObjs hash rest
termination_by l => (sizeOf l, 1)
end

/-- The store only holds content-addressed entries: every stored object
lives under its own digest.  (Preserved by `hash_object`; together with
injectivity of the digest it makes object writes non-destructive.) -/
def StoreCA (hash : String → String) (store : Store) : Prop :=
  ∀ a o, store a = some o → a = hash o

/-- A well-formed `base_path`: ends in `/` and no component of the part
before it is the metadata root (holds for `"./"` and is preserved when
descending into non-ignored subdirectories). -/
def baseOk (base : String) : Prop :=
  ∃ bb, base.data = bb ++ ['/'] ∧
    ∀ comp ∈ pySplitSepList '/' bb, comp ≠ ".git-clone".data

theorem pySplitSepList_ne_nil (sep : Char) (l : List Char) :
    pySplitSepList sep l ≠ [] := by
  match l with
  | [] => simp [pySplitSepList]
  | c :: t =>
    rw [pySplitSepList]
    by_cases h : c = sep
    · simp [h]
    · simp only [h, if_false]
      match pySplitSepList sep t with
      | [] => simp
      | h' :: r => simp

theorem pySplitSepList_append (sep : Char) (a b : List Char) :
    pySplitSepList sep (a ++ sep :: b)
      = pySplitSepList sep a ++ pySplitSepList sep b := by
  induction a with
  | nil => simp [pySplitSepList]
  | cons c t ih =>
    rw [List.cons_append, pySplitSepList]
    by_cases h : c = sep
    · rw [if_pos h, ih]
      conv_rhs => rw [pySplitSepList, if_pos h]
      simp
    · rw [if_neg h, ih]
      obtain ⟨h', r, hr⟩ : ∃ h' r, pySplitSepList sep t = h' :: r := by
        match hx : pySplitSepList sep t with
        | [] => exact absurd hx (pySplitSepList_ne_nil sep t)
        | h' :: r => exact ⟨h', r, rfl⟩
      rw [hr]
      conv_rhs => rw [pySplitSepList, if_neg h, hr]
      simp

theorem pySplitSepList_no_sep (sep : Char) (l : List Char) (h : sep ∉ l) :
    pySplitSepList sep l = [l] := by
  induction l with
  | nil => rfl
  | cons c t ih =>
    simp only [List.mem_cons, not_or] at h
    rw [pySplitSepList, if_neg (fun hc => h.1 hc.symm),
      ih h.2]

theorem is_ignored_false_of_comps (p : String)
    (h : ∀ comp ∈ pySplitSepList '/' p.data, comp ≠ ".git-clone".data) :
    is_ignored p = false := by
  unfold is_ignored
  rw [List.any_eq_false]
  intro comp hmem
  simpa using h comp hmem

theorem is_ignored_name_false (n : String) (hsep : '/' ∉ n.data)
    (hig : is_ignored n = false) : n.data ≠ ".git-clone".data := by
  unfold is_ignored at hig
  rw [pySplitSepList_no_sep '/' n.data hsep] at hig
  simp only [List.any_cons, List.any_nil, Bool.or_false] at hig
  simpa using hig

/-- Two well-formed names followed by path tails (`""` or `/`-started) can
only produce the same path when the names agree. -/
theorem name_key_inj (n1 n2 s1 s2 : List Char)
    (h1 : '/' ∉ n1) (h2 : '/' ∉ n2)
    (hs1 : s1 = [] ∨ ∃ r, s1 = '/' :: r)
    (hs2 : s2 = [] ∨ ∃ r, s2 = '/' :: r)
    (heq : n1 ++ s1 = n2 ++ s2) : n1 = n2 := by
  induction n1 generalizing n2 with
  | nil =>
    cases n2 with
    | nil => rfl
    | cons c t =>
      simp only [List.nil_append] at heq
      rcases hs1 with h | ⟨r, hr⟩
      · rw [h] at heq; cases heq
      · rw [hr] at heq
        injection heq with hc _
        cases hc
        exact absurd (List.mem_cons_self _ _) h2
  | cons c t ih =>
    cases n2 with
    | nil =>
      simp only [List.nil_append] at heq
      rcases hs2 with h | ⟨r, hr⟩
      · rw [h] at heq; cases heq
      · rw [hr] at heq
        injection heq with hc _
        cases hc
        exact absurd (List.mem_cons_self _ _) h1
    | cons c' t' =>
      injection heq with hc htail
      subst hc
      simp only [List.mem_cons, not_or] at h1 h2
      rw [ih t' h1.2 h2.2 htail]

theorem validNameB_props (n : String) (h : validNameB n = true) :
    n ≠ "" ∧ n ≠ "." ∧ n ≠ ".." ∧ '/' ∉ n.data
      ∧ ∀ c ∈ n.data, pyLineBreak c = false := by
  simp only [validNameB, Bool.and_eq_true, bne_iff_ne, ne_eq, Bool.not_eq_true',
    List.all_eq_true, decide_eq_false_iff_not] at h
  tauto

theorem validEntries_cons (n : String) (e : FSEntry)
    (rest : List (String × FSEntry))
    (h : validEntries ((n, e) :: rest) = true) :
    validNameB n = true ∧ validEntry e = true ∧ validEntries rest = true := by
  rw [validEntries] at h
  simp only [Bool.and_eq_true] at h
  exact ⟨h.1.1, h.1.2, h.2⟩

theorem validEntry_dir (l : List (String × FSEntry))
    (h : validEntry (.dir l) = true) :
    validEntries l = true ∧ (l.map Prod.fst).Nodup := by
  rw [validEntry] at h
  simpa [Bool.and_eq_true] using h

theorem flattenOids_key (hash : String → String) (l : List (String × FSEntry))
    (base : String) (hv : validEntries l = true) :
    ∀ p ∈ flattenOids hash base l, ∃ n s,
      p.1.data = base.data ++ n.data ++ s
      ∧ n ∈ l.map Prod.fst ∧ '/' ∉ n.data
      ∧ (s = [] ∨ ∃ r, s = '/' :: r) := by
  match l with
  | [] => simp [flattenOids]
  | (n, .file c) :: rest =>
    obtain ⟨hn, _, hrest⟩ := validEntries_cons _ _ _ hv
    intro p hp
    rw [flattenOids] at hp
    by_cases hig : is_ignored n
    · rw [if_pos hig] at hp
      obtain ⟨n', s', h1, h2, h3, h4⟩ := flattenOids_key hash rest base hrest p hp
      exact ⟨n', s', h1, List.mem_cons_of_mem _ h2, h3, h4⟩
    · rw [if_neg hig] at hp
      rcases List.mem_cons.1 hp with hp | hp
      · subst hp
        refine ⟨n, [], ?_, by simp, (validNameB_props n hn).2.2.2.1, Or.inl rfl⟩
        simp [String.data_append]
      · obtain ⟨n', s', h1, h2, h3, h4⟩ := flattenOids_key hash rest base hrest p hp
        exact ⟨n', s', h1, List.mem_cons_of_mem _ h2, h3, h4⟩
  | (n, .dir l') :: rest =>
    obtain ⟨hn, he, hrest⟩ := validEntries_cons _ _ _ hv
    intro p hp
    rw [flattenOids] at hp
    by_cases hig : is_ignored n
    · rw [if_pos hig] at hp
      obtain ⟨n', s', h1, h2, h3, h4⟩ := flattenOids_key hash rest base hrest p hp
      exact ⟨n', s', h1, List.mem_cons_of_mem _ h2, h3, h4⟩
    · rw [if_neg hig] at hp
      rcases List.mem_append.1 hp with hp | hp
      · obtain ⟨n', s', h1, h2, h3, h4⟩ :=
          flattenOids_key hash l' (base ++ n ++ "/") (validEntry_dir l' he).1 p hp
        refine ⟨n, '/' :: (n'.data ++ s'), ?_, by simp,
          (validNameB_props n hn).2.2.2.1, Or.inr ⟨_, rfl⟩⟩
        rw [h1]
        simp [String.data_append, List.append_assoc]
      · obtain ⟨n', s', h1, h2, h3, h4⟩ := flattenOids_key hash rest base hrest p hp
        exact ⟨n', s', h1, List.mem_cons_of_mem _ h2, h3, h4⟩
termination_by sizeOf l

theorem flattenOids_nodup (hash : String → String) (l : List (String × FSEntry))
    (base : String) (hv : validEntries l = true)
    (hnd : (l.map Prod.fst).Nodup) :
    ((flattenOids hash base l).map Prod.fst).Nodup := by
  match l with
  | [] => simp [flattenOids]
  | (n, .file c) :: rest =>
    obtain ⟨hn, _, hrest⟩ := validEntries_cons _ _ _ hv
    simp only [List.map_cons, List.nodup_cons] at hnd
    rw [flattenOids]
    by_cases hig : is_ignored n
    · rw [if_pos hig]
      exact flattenOids_nodup hash rest base hrest hnd.2
    · rw [if_neg hig]
      simp only [List.map_cons, List.nodup_cons]
      refine ⟨?_, flattenOids_nodup hash rest base hrest hnd.2⟩
      intro hmem
      obtain ⟨q, hq, hq1⟩ := List.mem_map.1 hmem
      obtain ⟨n2, s2, h1, h2, h3, h4⟩ := flattenOids_key hash rest base hrest q hq
      have hdata : base.data ++ (n.data ++ []) = base.data ++ (n2.data ++ s2) := by
        have := congrArg String.data hq1
        rw [h1, String.data_append] at this
        simpa [List.append_assoc] using this.symm
      have := name_key_inj n.data n2.data [] s2
        (validNameB_props n hn).2.2.2.1 h3 (Or.inl rfl) h4
        (List.append_cancel_left hdata)
      exact hnd.1 (String.ext this ▸ h2)
  | (n, .dir l') :: rest =>
    obtain ⟨hn, he, hrest⟩ := validEntries_cons _ _ _ hv
    simp only [List.map_cons, List.nodup_cons] at hnd
    rw [flattenOids]
    by_cases hig : is_ignored n
    · rw [if_pos hig]
      exact flattenOids_nodup hash rest base hrest hnd.2
    · rw [if_neg hig]
      rw [List.map_append]
      refine List.Nodup.append
        (flattenOids_nodup hash l' (base ++ n ++ "/") (validEntry_dir l' he).1
          (validEntry_dir l' he).2)
        (flattenOids_nodup hash rest base hrest hnd.2) ?_
      intro k hk1 hk2
      obtain ⟨p, hp, hp1⟩ := List.mem_map.1 hk1
      obtain ⟨q, hq, hq1⟩ := List.mem_map.1 hk2
      obtain ⟨n1, s1, g1, g2, g3, g4⟩ :=
        flattenOids_key hash l' (base ++ n ++ "/") (validEntry_dir l' he).1 p hp
      obtain ⟨n2, s2, f1, f2, f3, f4⟩ := flattenOids_key hash rest base hrest q hq
      have hdata : base.data ++ (n.data ++ ('/' :: (n1.data ++ s1)))
          = base.data ++ (n2.data ++ s2) := by
        have := congrArg String.data (hp1.trans hq1.symm)
        rw [g1, f1] at this
        simpa [String.data_append, List.append_assoc] using this
      have := name_key_inj n.data n2.data ('/' :: (n1.data ++ s1)) s2
        (validNameB_props n hn).2.2.2.1 f3 (Or.inr ⟨_, rfl⟩) f4
        (List.append_cancel_left hdata)
      exact hnd.1 (String.ext this ▸ f2)
termination_by sizeOf l

theorem baseOk_extend (base n : String) (hb : baseOk base) (hsep : '/' ∉ n.data)
    (hgit : n.data ≠ ".git-clone".data) : baseOk (base ++ n ++ "/") := by
  obtain ⟨bb, hbb, hcomp⟩ := hb
  refine ⟨bb ++ '/' :: n.data, ?_, ?_⟩
  · rw [String.data_append, String.data_append, hbb]
    simp
  · intro comp hmem
    rw [pySplitSepList_append, pySplitSepList_no_sep '/' n.data hsep] at hmem
    rcases List.mem_append.1 hmem with h | h
    · exact hcomp comp h
    · simp only [List.mem_singleton] at h
      exact h ▸ hgit

theorem flattenOids_not_ignored (hash : String → String)
    (l : List (String × FSEntry)) (base : String)
    (hv : validEntries l = true) (hb : baseOk base) :
    ∀ p ∈ flattenOids hash base l, is_ignored p.1 = false := by
  match l with
  | [] => simp [flattenOids]
  | (n, .file c) :: rest =>
    obtain ⟨hn, _, hrest⟩ := validEntries_cons _ _ _ hv
    intro p hp
    rw [flattenOids] at hp
    by_cases hig : is_ignored n
    · rw [if_pos hig] at hp
      exact flattenOids_not_ignored hash rest base hrest hb p hp
    · rw [if_neg hig] at hp
      rcases List.mem_cons.1 hp with hp | hp
      · subst hp
        obtain ⟨bb, hbb, hcomp⟩ := hb
        apply is_ignored_false_of_comps
        intro comp hmem
        have hdata : (base ++ n).data = bb ++ '/' :: n.data := by
          rw [String.data_append, hbb]; simp
        rw [hdata, pySplitSepList_append,
          pySplitSepList_no_sep '/' n.data (validNameB_props n hn).2.2.2.1] at hmem
        rcases List.mem_append.1 hmem with h | h
        · exact hcomp comp h
        · simp only [List.mem_singleton] at h
          subst h
          exact is_ignored_name_false n (validNameB_props n hn).2.2.2.1
            (Bool.not_eq_true _ ▸ (Bool.of_not_eq_true hig))
      · exact flattenOids_not_ignored hash rest base hrest hb p hp
  | (n, .dir l') :: rest =>
    obtain ⟨hn, he, hrest⟩ := validEntries_cons _ _ _ hv
    intro p hp
    rw [flattenOids] at hp
    by_cases hig : is_ignored n
    · rw [if_pos hig] at hp
      exact flattenOids_not_ignored hash rest base hrest hb p hp
    · rw [if_neg hig] at hp
      rcases List.mem_append.1 hp with hp | hp
      · have hb' : baseOk (base ++ n ++ "/") :=
          baseOk_extend base n hb (validNameB_props n hn).2.2.2.1
            (is_ignored_name_false n (validNameB_props n hn).2.2.2.1
              (Bool.not_eq_true _ ▸ (Bool.of_not_eq_true hig)))
        exact flattenOids_not_ignored hash l' (base ++ n ++ "/")
          (validEntry_dir l' he).1 hb' p hp
      · exact flattenOids_not_ignored hash rest base hrest hb p hp
termination_by sizeOf l

theorem lookup_none_of_not_mem (d : List (String × String)) (k : String)
    (h : k ∉ d.map Prod.fst) : d.lookup k = none := by
  induction d with
  | nil => rfl
  | cons q rest ih =>
    simp only [List.map_cons, List.mem_cons, not_or] at h
    obtain ⟨a, b⟩ := q
    have hne : (k == a) = false := by simpa using h.1
    simp [List.lookup, hne, ih h.2]

theorem lookup_none_of_ignored (wd : List (String × String)) (k : String)
    (hwd : ∀ q ∈ wd, is_ignored q.1 = true) (hk : is_ignored k = false) :
    wd.lookup k = none := by
  induction wd with
  | nil => rfl
  | cons q rest ih =>
    obtain ⟨a, b⟩ := q
    have hne : (k == a) = false := by
      simp only [beq_eq_false_iff_ne, ne_eq]
      intro hka
      have := hwd (a, b) (List.mem_cons_self _ _)
      rw [← hka, hk] at this
      cases this
    simp [List.lookup, hne, ih fun p hp => hwd p (List.mem_cons_of_mem _ hp)]

theorem dictInsert_append (d : List (String × String)) (k v : String)
    (h : d.lookup k = none) : dictInsert d k v = d ++ [(k, v)] := by
  rw [dictInsert, h]
  simp

theorem dictUpdate_append (d m : List (String × String))
    (hnd : (m.map Prod.fst).Nodup)
    (hdisj : ∀ p ∈ m, d.lookup p.1 = none) :
    dictUpdate d m = d ++ m := by
  induction m generalizing d with
  | nil => simp [dictUpdate]
  | cons q rest ih =>
    simp only [List.map_cons, List.nodup_cons] at hnd
    have h1 : dictInsert d q.1 q.2 = d ++ [q] := by
      rw [dictInsert_append d q.1 q.2 (hdisj q (List.mem_cons_self _ _))]
    have h2 : dictUpdate d (q :: rest) = dictUpdate (dictInsert d q.1 q.2) rest := by
      rw [dictUpdate, dictUpdate, List.foldl_cons]
    rw [h2, h1, ih (d ++ [q]) hnd.2 ?_]
    · simp
    · intro p hp
      rw [List.lookup_append, hdisj p (List.mem_cons_of_mem _ hp),
        lookup_none_of_not_mem [q] p.1 ?_]
      · rfl
      · simp only [List.map_cons, List.map_nil, List.mem_singleton]
        intro hpq
        exact hnd.1 (hpq ▸ List.mem_map_of_mem Prod.fst hp)

theorem hash_object_store (hash : String → String)
    (hinj : Function.Injective hash) (store : Store)
    (hca : StoreCA hash store) (d ty : String) :
    StoreCA hash (hash_object hash store d ty).1
    ∧ (∀ a o, store a = some o → (hash_object hash store d ty).1 a = some o)
    ∧ (hash_object hash store d ty).1 (hash (ty ++ "\x00" ++ d))
        = some (ty ++ "\x00" ++ d) := by
  refine ⟨?_, ?_, by simp [hash_object]⟩
  · intro a o h
    simp only [hash_object] at h
    by_cases ha : a = hash (ty ++ "\x00" ++ d)
    · rw [if_pos ha] at h
      injection h with h2
      rw [← h2]
      exact ha
    · rw [if_neg ha] at h
      exact hca a o h
  · intro a o h
    simp only [hash_object]
    by_cases ha : a = hash (ty ++ "\x00" ++ d)
    · rw [if_pos ha]
      have h1 : a = hash o := hca a o h
      have h2 : o = ty ++ "\x00" ++ d := hinj (h1.symm.trans ha)
      rw [h2]
    · rw [if_neg ha]
      exact h

mutual
theorem writeEntry_store (hash : String → String)
    (hinj : Function.Injective hash) (store : Store)
    (hca : StoreCA hash store) (e : FSEntry) :
    StoreCA hash (writeEntry hash store e).1
    ∧ (∀ a o, store a = some o → (writeEntry hash store e).1 a = some o)
    ∧ (∀ o ∈ entryObjs hash e, (writeEntry hash store e).1 (hash o) = some o) := by
  match e with
  | .file c =>
    obtain ⟨h1, h2, h3⟩ := hash_object_store hash hinj store hca c "blob"
    refine ⟨?_, ?_, ?_⟩
    · simpa [writeEntry] using h1
    · intro a o h
      simpa [writeEntry] using h2 a o h
    · intro o ho
      rw [entryObjs] at ho
      simp only [List.mem_singleton] at ho
      subst ho
      simpa [writeEntry] using h3
  | .dir l =>
    obtain ⟨h1, h2, h3, h4⟩ := write_tree_store hash hinj store hca l
    refine ⟨?_, ?_, ?_⟩
    · simpa [writeEntry] using h1
    · intro a o h
      simpa [writeEntry] using h2 a o h
    · intro o ho
      rw [entryObjs] at ho
      rcases List.mem_append.1 ho with ho | ho
      · simpa [writeEntry] using h3 o ho
      · simp only [List.mem_singleton] at ho
        subst ho
        simpa [writeEntry] using h4
termination_by (sizeOf e, 0)

theorem writeEntries_store (hash : String → String)
    (hinj : Function.Injective hash) (store : Store)
    (hca : StoreCA hash store) (l : List (String × FSEntry)) :
    StoreCA hash (writeEntries hash store l).1
    ∧ (∀ a o, store a = some o → (writeEntries hash store l).1 a = some o)
    ∧ (∀ o ∈ dirObjs hash l, (writeEntries hash store l).1 (hash o) = some o) := by
  match l with
  | [] => exact ⟨by simpa [writeEntries] using hca,
      fun a o h => by simpa [writeEntries] using h, by simp [dirObjs]⟩
  | (n, e) :: rest =>
    by_cases hig : is_ignored n
    · obtain ⟨h1, h2, h3⟩ := writeEntries_store hash hinj store hca rest
      refine ⟨by simpa [writeEntries, hig] using h1,
        fun a o h => by simpa [writeEntries, hig] using h2 a o h, ?_⟩
      intro o ho
      rw [dirObjs] at ho
      simp only [hig, if_true, List.nil_append] at ho
      simpa [writeEntries, hig] using h3 o ho
    · obtain ⟨g1, g2, g3⟩ := writeEntry_store hash hinj store hca e
      obtain ⟨h1, h2, h3⟩ :=
        writeEntries_store hash hinj (writeEntry hash store e).1 g1 rest
      refine ⟨by simpa [writeEntries, hig] using h1,
        fun a o h => by simpa [writeEntries, hig] using h2 a o (g2 a o h), ?_⟩
      intro o ho
      rw [dirObjs] at ho
      simp only [hig, if_false, Bool.false_eq_true, List.mem_append] at ho
      rcases ho with ho | ho
      · simpa [writeEntries, hig] using h2 _ _ (g3 o ho)
      · simpa [writeEntries, hig] using h3 o ho
termination_by (sizeOf l, 1)

theorem write_tree_store (hash : String → String)
    (hinj : Function.Injective hash) (store : Store)
    (hca : StoreCA hash store) (l : List (String × FSEntry)) :
    StoreCA hash (write_tree hash store l).1
    ∧ (∀ a o, store a = some o → (write_tree hash store l).1 a = some o)
    ∧ (∀ o ∈ dirObjs hash l, (write_tree hash store l).1 (hash o) = some o)
    ∧ (write_tree hash store l).1
        (hash ("tree" ++ "\x00" ++
          serializeEntries (List.insertionSort entryLE (triplesOf hash l))))
      = some ("tree" ++ "\x00" ++
          serializeEntries (List.insertionSort entryLE (triplesOf hash l))) := by
  obtain ⟨h1, h2, h3⟩ := writeEntries_store hash hinj store hca l
  obtain ⟨g1, g2, g3⟩ := hash_object_store hash hinj (writeEntries hash store l).1 h1
    (serializeEntries (List.insertionSort entryLE (writeEntries hash store l).2))
    "tree"
  have hsnd : (writeEntries hash store l).2 = triplesOf hash l :=
    writeEntries_snd hash store l
  refine ⟨?_, ?_, ?_, ?_⟩
  · simpa [write_tree] using g1
  · intro a o h
    simpa [write_tree] using g2 a o (h2 a o h)
  · intro o ho
    simpa [write_tree] using g2 _ _ (h3 o ho)
  · have := g3
    rw [hsnd] at this
    simpa [write_tree, hsnd] using this
termination_by (sizeOf l, 2)
end

theorem foldl_append_init (l : List String) :
    ∀ x : String, l.foldl (· ++ ·) x = x ++ l.foldl (· ++ ·) "" := by
  induction l with
  | nil => intro x; simp
  | cons s t ih =>
    intro x
    rw [List.foldl_cons, List.foldl_cons, ih (x ++ s), ih ("" ++ s)]
    have : ("" : String) ++ s = s := rfl
    rw [this, String.append_assoc]

theorem join_cons (s : String) (l : List String) :
    String.join (s :: l) = s ++ String.join l := by
  rw [String.join, String.join, List.foldl_cons, foldl_append_init]
  have : ("" : String) ++ s = s := rfl
  rw [this]

/-- The single tree entry line `f"{type_} {oid} {name}"` (without the
newline). -/
def lineStr (t : String × String × String) : String :=
  t.2.2 ++ " " ++ t.2.1 ++ " " ++ t.1

theorem serializeEntries_cons (t : String × String × String)
    (es : List (String × String × String)) :
    serializeEntries (t :: es) = (lineStr t ++ "\n") ++ serializeEntries es := by
  rw [serializeEntries, List.map_cons, join_cons]
  rfl

theorem pySplitLinesList_line (a b : List Char) (ha : '\n' ∉ a) :
    pySplitLinesList (a ++ '\n' :: b) = a :: pySplitLinesList b := by
  induction a with
  | nil => simp [pySplitLinesList]
  | cons c t ih =>
    simp only [List.mem_cons, not_or] at ha
    rw [List.cons_append, pySplitLinesList,
      if_neg (fun hc => ha.1 hc.symm), ih ha.2]

theorem goodDigestB_props (o : String) (h : goodDigestB o = true) :
    o ≠ "" ∧ ∀ c ∈ o.data, c ≠ ' ' ∧ pyLineBreak c = false := by
  simp only [goodDigestB, Bool.and_eq_true, bne_iff_ne, ne_eq,
    List.all_eq_true, Bool.not_eq_true'] at h
  refine ⟨h.1, fun c hc => ⟨?_, (h.2 c hc).2⟩⟩
  simpa using (h.2 c hc).1

theorem no_newline_of_no_break (s : String)
    (h : ∀ c ∈ s.data, pyLineBreak c = false) : '\n' ∉ s.data := by
  intro hmem
  have := h '\n' hmem
  simp [pyLineBreak] at this

theorem no_space_of_digest (o : String) (h : goodDigestB o = true) :
    ' ' ∉ o.data := by
  intro hmem
  exact ((goodDigestB_props o h).2 ' ' hmem).1 rfl

theorem lineStr_no_newline (t : String × String × String)
    (hty : t.2.2 = "blob" ∨ t.2.2 = "tree")
    (hoid : goodDigestB t.2.1 = true) (hname : validNameB t.1 = true) :
    '\n' ∉ (lineStr t).data := by
  intro hmem
  rw [lineStr] at hmem
  simp only [String.data_append, List.mem_append] at hmem
  rcases hmem with ((((hmem | hmem) | hmem) | hmem) | hmem)
  · rcases hty with h | h <;> rw [h] at hmem <;> simp at hmem
  · simp at hmem
  · have := (goodDigestB_props _ hoid).2 '\n' hmem
    simp [pyLineBreak] at this
  · simp at hmem
  · have := (validNameB_props _ hname).2.2.2.2 '\n' hmem
    simp [pyLineBreak] at this

theorem pySplitLines_serialize (es : List (String × String × String))
    (h : ∀ t ∈ es, '\n' ∉ (lineStr t).data) :
    pySplitLines (serializeEntries es) = es.map lineStr := by
  induction es with
  | nil => rfl
  | cons t rest ih =>
    rw [serializeEntries_cons, pySplitLines]
    have hdata : ((lineStr t ++ "\n") ++ serializeEntries rest).data
        = (lineStr t).data ++ '\n' :: (serializeEntries rest).data := by
      simp [String.data_append]
    rw [hdata, pySplitLinesList_line _ _ (h t (List.mem_cons_self _ _))]
    rw [List.map_cons]
    congr 1
    exact congrArg (List.map String.mk)
      (by rfl : pySplitLinesList (serializeEntries rest).data
        = pySplitLinesList (serializeEntries rest).data) |>.trans
      (ih fun q hq => h q (List.mem_cons_of_mem _ hq))

theorem pySplit2_line (ty oid name : String) (hty : ' ' ∉ ty.data)
    (hoid : ' ' ∉ oid.data) :
    pySplit2 (lineStr (name, oid, ty)) = some (ty, oid, name) := by
  have hdata : (lineStr (name, oid, ty)).data
      = ty.data ++ ' ' :: (oid.data ++ ' ' :: name.data) := by
    rw [lineStr]
    simp [String.data_append]
  rw [pySplit2, hdata, dropWhile_ne_append _ _ _ hty]
  rw [takeWhile_ne_append _ _ _ hty]
  simp only [dropWhile_ne_append _ _ _ hoid, takeWhile_ne_append _ _ _ hoid]

/-- The tuple order on `(name, entry)` pairs induced by the triple they
serialize to. -/
def pairLE (hash : String → String) (a b : String × FSEntry) : Prop :=
  entryLE (a.1, entryMeta hash a.2) (b.1, entryMeta hash b.2)

instance (hash : String → String) : DecidableRel (pairLE hash) := fun a b =>
  inferInstanceAs (Decidable (entryLE _ _))

theorem map_orderedInsert (hash : String → String) (x : String × FSEntry)
    (l : List (String × FSEntry)) :
    (List.orderedInsert (pairLE hash) x l).map
        (fun p => (p.1, entryMeta hash p.2))
      = List.orderedInsert entryLE (x.1, entryMeta hash x.2)
        (l.map (fun p => (p.1, entryMeta hash p.2))) := by
  induction l with
  | nil => simp [List.orderedInsert]
  | cons y t ih =>
    by_cases h : pairLE hash x y
    · have h2 : entryLE (x.1, entryMeta hash x.2) (y.1, entryMeta hash y.2) := h
      rw [List.orderedInsert, if_pos h]
      simp only [List.map_cons]
      rw [List.orderedInsert, if_pos h2]
    · have h2 : ¬entryLE (x.1, entryMeta hash x.2) (y.1, entryMeta hash y.2) := h
      rw [List.orderedInsert, if_neg h]
      simp only [List.map_cons]
      rw [List.orderedInsert, if_neg h2, ih]

theorem map_insertionSort (hash : String → String)
    (l : List (String × FSEntry)) :
    (List.insertionSort (pairLE hash) l).map (fun p => (p.1, entryMeta hash p.2))
      = List.insertionSort entryLE (l.map (fun p => (p.1, entryMeta hash p.2))) := by
  induction l with
  | nil => rfl
  | cons x t ih =>
    simp only [List.insertionSort, List.map_cons]
    rw [map_orderedInsert, ih]

theorem triplesOf_eq (hash : String → String) (l : List (String × FSEntry)) :
    triplesOf hash l
      = (l.filter (fun p => !is_ignored p.1)).map
          (fun p => (p.1, entryMeta hash p.2)) := by
  induction l with
  | nil => simp [triplesOf]
  | cons x t ih =>
    obtain ⟨n, e⟩ := x
    by_cases hig : is_ignored n
    · rw [triplesOf, if_pos hig, ih, List.filter_cons]
      simp [hig]
    · rw [triplesOf, if_neg hig, ih, List.filter_cons]
      simp [hig]

theorem flattenOids_eq_flatMap (hash : String → String) (base : String)
    (l : List (String × FSEntry)) :
    flattenOids hash base l
      = (l.filter (fun p => !is_ignored p.1)).flatMap (entryBlock hash base) := by
  match l with
  | [] => simp [flattenOids]
  | (n, .file c) :: rest =>
    by_cases hig : is_ignored n
    · rw [flattenOids, if_pos hig, List.filter_cons]
      simp only [hig, Bool.not_true, Bool.false_eq_true, if_false]
      exact flattenOids_eq_flatMap hash base rest
    · rw [flattenOids, if_neg hig, List.filter_cons]
      simp only [hig, Bool.not_false, if_true]
      rw [List.flatMap_cons, flattenOids_eq_flatMap hash base rest]
      rfl
  | (n, .dir l') :: rest =>
    by_cases hig : is_ignored n
    · rw [flattenOids, if_pos hig, List.filter_cons]
      simp only [hig, Bool.not_true, Bool.false_eq_true, if_false]
      exact flattenOids_eq_flatMap hash base rest
    · rw [flattenOids, if_neg hig, List.filter_cons]
      simp only [hig, Bool.not_false, if_true]
      rw [List.flatMap_cons, flattenOids_eq_flatMap hash base rest]
      rfl
termination_by sizeOf l

/-- The blob contents `read_tree` writes for a given address (total
version of the `get_object(oid)` call; callers establish success). -/
def blobContent (store : Store) (oid : String) : String :=
  match get_object store oid (some "blob") with
  | .ok c => c
  | _ => ""

theorem get_object_stored (store : Store) (oid k c : String)
    (h : store oid = some (k ++ "\x00" ++ c)) (hk : '\x00' ∉ k.data) :
    get_object store oid (some k) = .ok c := by
  have hpart : pyPartition (k ++ "\x00" ++ c) '\x00' = (k, c) := by
    have hx : ("\x00" : String) = ⟨['\x00']⟩ := rfl
    rw [hx]
    exact pyPartition_append k c '\x00' hk
  simp [get_object, h, hpart]

theorem blobContent_stored (store : Store) (c : String) (oid : String)
    (h : store oid = some ("blob" ++ "\x00" ++ c)) :
    blobContent store oid = c := by
  rw [blobContent, get_object_stored store oid "blob" c h (by decide)]

theorem dirObjs_cons_ig (hash : String → String) (n : String) (e : FSEntry)
    (rest : List (String × FSEntry)) (hig : is_ignored n = true) :
    dirObjs hash ((n, e) :: rest) = dirObjs hash rest := by
  rw [dirObjs]
  simp [hig]

theorem dirObjs_cons (hash : String → String) (n : String) (e : FSEntry)
    (rest : List (String × FSEntry)) (hig : is_ignored n = false) :
    dirObjs hash ((n, e) :: rest) = entryObjs hash e ++ dirObjs hash rest := by
  rw [dirObjs]
  simp [hig]

theorem entryObjs_dir_eq (hash : String → String)
    (l : List (String × FSEntry)) :
    entryObjs hash (.dir l) = dirObjs hash l ++
      ["tree" ++ "\x00" ++
        serializeEntries (List.insertionSort entryLE (triplesOf hash l))] := by
  rw [entryObjs]

theorem entryDepth_le_of_mem (n : String) (e : FSEntry)
    (l : List (String × FSEntry)) (h : (n, e) ∈ l) :
    entryDepth e ≤ dirDepth l := by
  induction l with
  | nil => cases h
  | cons q t ih =>
    obtain ⟨m, ee⟩ := q
    rw [dirDepth]
    rcases List.mem_cons.1 h with h | h
    · injection h with h1 h2
      subst h2
      exact le_max_left _ _
    · exact le_trans (ih h) (le_max_right _ _)

theorem flatten_eq_map (hash : String → String) (store : Store)
    (l : List (String × FSEntry)) (base : String)
    (hs : ∀ o ∈ dirObjs hash l, store (hash o) = some o) :
    flatten base l
      = (flattenOids hash base l).map (fun p => (p.1, blobContent store p.2)) := by
  match l with
  | [] => simp [flatten, flattenOids]
  | (n, .file c) :: rest =>
    by_cases hig : is_ignored n
    · rw [flatten, if_pos hig, flattenOids, if_pos hig]
      refine flatten_eq_map hash store rest base fun o ho => ?_
      exact hs o (by rw [dirObjs_cons_ig hash n _ rest hig]; exact ho)
    · have higf : is_ignored n = false := by simpa using hig
      rw [flatten, if_neg hig, flattenOids, if_neg hig, List.map_cons]
      have hobj : store (hash ("blob" ++ "\x00" ++ c))
          = some ("blob" ++ "\x00" ++ c) := by
        refine hs _ ?_
        rw [dirObjs_cons hash n _ rest higf, entryObjs]
        simp
      rw [blobContent_stored store c _ hobj]
      have hrest := flatten_eq_map hash store rest base fun o ho =>
        hs o (by rw [dirObjs_cons hash n _ rest higf]; exact List.mem_append_right _ ho)
      rw [hrest]
  | (n, .dir l') :: rest =>
    by_cases hig : is_ignored n
    · rw [flatten, if_pos hig, flattenOids, if_pos hig]
      refine flatten_eq_map hash store rest base fun o ho => ?_
      exact hs o (by rw [dirObjs_cons_ig hash n _ rest hig]; exact ho)
    · have higf : is_ignored n = false := by simpa using hig
      rw [flatten, if_neg hig, flattenOids, if_neg hig, List.map_append]
      have hsub := flatten_eq_map hash store l' (base ++ n ++ "/") fun o ho => by
        refine hs o ?_
        rw [dirObjs_cons hash n _ rest higf, entryObjs_dir_eq]
        exact List.mem_append_left _ (List.mem_append_left _ ho)
      have hrest := flatten_eq_map hash store rest base fun o ho =>
        hs o (by rw [dirObjs_cons hash n _ rest higf]; exact List.mem_append_right _ ho)
      rw [hsub, hrest]
termination_by sizeOf l

theorem tagged_ne_empty (k p : String) : k ++ "\x00" ++ p ≠ "" := by
  intro h
  have := congrArg String.data h
  rw [String.data_append, String.data_append] at this
  have hx : ("\x00" : String).data = ['\x00'] := rfl
  rw [hx] at this
  simp at this

theorem validEntries_mem (l : List (String × FSEntry))
    (hv : validEntries l = true) (n : String) (e : FSEntry) (h : (n, e) ∈ l) :
    validNameB n = true ∧ validEntry e = true := by
  induction l with
  | nil => cases h
  | cons q t ih =>
    obtain ⟨m, ee⟩ := q
    obtain ⟨h1, h2, h3⟩ := validEntries_cons _ _ _ hv
    rcases List.mem_cons.1 h with h | h
    · injection h with ha hb
      subst ha; subst hb
      exact ⟨h1, h2⟩
    · exact ih h3 h

theorem mem_dirObjs_of_mem (hash : String → String)
    (l : List (String × FSEntry)) (n : String) (e : FSEntry)
    (h : (n, e) ∈ l) (hig : is_ignored n = false) :
    ∀ o ∈ entryObjs hash e, o ∈ dirObjs hash l := by
  induction l with
  | nil => cases h
  | cons q t ih =>
    obtain ⟨m, ee⟩ := q
    intro o ho
    rcases List.mem_cons.1 h with hh | hh
    · injection hh with ha hb
      subst ha; subst hb
      rw [dirObjs_cons hash n e t hig]
      exact List.mem_append_left _ ho
    · by_cases higm : is_ignored m
      · rw [dirObjs_cons_ig hash m ee t higm]
        exact ih hh o ho
      · rw [dirObjs_cons hash m ee t (by simpa using higm)]
        exact List.mem_append_right _ (ih hh o ho)

theorem get_tree_go_correct (hash : String → String)
    (rec : String → String → PyOutcome (List (String × String)))
    (hdig : ∀ s, s ≠ "" → goodDigestB (hash s) = true) (base : String) :
    ∀ (ps : List (String × FSEntry)) (acc : List (String × String)),
      (∀ p ∈ ps, validNameB p.1 = true ∧ validEntry p.2 = true) →
      (∀ n l', (n, FSEntry.dir l') ∈ ps →
        ∃ m', rec (treeOid hash l') (base ++ n ++ "/") = .ok m'
          ∧ List.Perm m' (flattenOids hash (base ++ n ++ "/") l')) →
      ((ps.flatMap (entryBlock hash base)).map Prod.fst).Nodup →
      (∀ k ∈ (ps.flatMap (entryBlock hash base)).map Prod.fst,
        acc.lookup k = none) →
      ∃ m2, get_tree_go rec
          (ps.map (fun p => lineStr (p.1, entryMeta hash p.2))) base acc
        = .ok (acc ++ m2)
        ∧ List.Perm m2 (ps.flatMap (entryBlock hash base)) := by
  intro ps
  induction ps with
  | nil =>
    intro acc _ _ _ _
    exact ⟨[], by simp [get_tree_go], by simp⟩
  | cons p rest ih =>
    intro acc hps hrec hnd hdisj
    obtain ⟨n, e⟩ := p
    obtain ⟨hname, hentry⟩ := hps (n, e) (List.mem_cons_self _ _)
    obtain ⟨hn1, hn2, hn3, hn4, hn5⟩ := validNameB_props n hname
    rw [List.flatMap_cons, List.map_append] at hnd hdisj
    have hndL := (List.nodup_append.1 hnd).1
    have hndR := (List.nodup_append.1 hnd).2.1
    have hdisjLR := (List.nodup_append.1 hnd).2.2
    match e with
    | .file c =>
      have hobj : ("blob" ++ "\x00" ++ c) ≠ "" := tagged_ne_empty _ _
      have hline : pySplit2 (lineStr (n, entryMeta hash (.file c)))
          = some ("blob", hash ("blob" ++ "\x00" ++ c), n) := by
        have hm : entryMeta hash (.file c) = (hash ("blob" ++ "\x00" ++ c), "blob") := by
          rw [entryMeta]
        rw [hm]
        exact pySplit2_line "blob" (hash ("blob" ++ "\x00" ++ c)) n
          (by decide) (no_space_of_digest _ (hdig _ hobj))
      have hkey : acc.lookup (base ++ n) = none := by
        apply hdisj
        apply List.mem_append_left
        simp [entryBlock]
      rw [List.map_cons, get_tree_go, hline]
      simp only [hn4, if_false, hn2, hn3, if_true, if_pos rfl]
      rw [dictInsert_append acc (base ++ n) _ hkey]
      have hside : ∀ k ∈ List.map Prod.fst (rest.flatMap (entryBlock hash base)),
          (acc ++ [(base ++ n, hash ("blob" ++ "\x00" ++ c))]).lookup k = none := by
        intro k hk
        rw [List.lookup_append]
        rw [hdisj k (List.mem_append_right _ hk)]
        have hnk : k ∉ ([(base ++ n, hash ("blob" ++ "\x00" ++ c))].map Prod.fst) := by
          simp only [List.map_cons, List.map_nil, List.mem_singleton]
          intro hkn
          exact hdisjLR (by rw [hkn]; simp [entryBlock]) hk
        rw [lookup_none_of_not_mem _ _ hnk]
        rfl
      obtain ⟨m2, hm2, hm2p⟩ := ih (acc ++ [(base ++ n, hash ("blob" ++ "\x00" ++ c))])
        (fun q hq => hps q (List.mem_cons_of_mem _ hq))
        (fun nn ll hq => hrec nn ll (List.mem_cons_of_mem _ hq))
        hndR hside
      refine ⟨(base ++ n, hash ("blob" ++ "\x00" ++ c)) :: m2, ?_, ?_⟩
      · rw [hm2]
        simp
      · rw [List.flatMap_cons]
        simp only [entryBlock]
        exact List.Perm.cons _ hm2p
    | .dir l' =>
      have hobj : ("tree" ++ "\x00" ++
          serializeEntries (List.insertionSort entryLE (triplesOf hash l'))) ≠ "" :=
        tagged_ne_empty _ _
      have hline : pySplit2 (lineStr (n, entryMeta hash (.dir l')))
          = some ("tree", treeOid hash l', n) := by
        have hm : entryMeta hash (.dir l') = (treeOid hash l', "tree") := by
          rw [entryMeta]
        rw [hm]
        refine pySplit2_line "tree" (treeOid hash l') n (by decide) ?_
        have : treeOid hash l' = hash ("tree" ++ "\x00" ++
            serializeEntries (List.insertionSort entryLE (triplesOf hash l'))) := by
          rw [treeOid]
        rw [this]
        exact no_space_of_digest _ (hdig _ hobj)
      obtain ⟨m', hm', hm'p⟩ := hrec n l' (List.mem_cons_self _ _)
      have hm'keys : ∀ k, k ∈ m'.map Prod.fst ↔
          k ∈ (entryBlock hash base (n, .dir l')).map Prod.fst := by
        intro k
        constructor
        · intro h
          have := (hm'p.map Prod.fst).mem_iff.1 h
          simpa [entryBlock] using this
        · intro h
          apply (hm'p.map Prod.fst).mem_iff.2
          simpa [entryBlock] using h
      have hupd : dictUpdate acc m' = acc ++ m' := by
        refine dictUpdate_append acc m' ?_ ?_
        · refine ((hm'p.map Prod.fst).nodup_iff).2 ?_
          simpa [entryBlock] using hndL
        · intro q hq
          apply hdisj
          apply List.mem_append_left
          exact (hm'keys q.1).1 (List.mem_map_of_mem _ hq)
      rw [List.map_cons, get_tree_go, hline]
      simp only [hn4, hn2, hn3, or_self, if_false, if_true,
        if_neg (show ¬("tree" : String) = "blob" by decide), if_pos rfl]
      rw [hm']
      simp only [hupd]
      have hside : ∀ k ∈ List.map Prod.fst (rest.flatMap (entryBlock hash base)),
          (acc ++ m').lookup k = none := by
        intro k hk
        rw [List.lookup_append]
        rw [hdisj k (List.mem_append_right _ hk)]
        have hnk : k ∉ m'.map Prod.fst := fun hkm =>
          hdisjLR ((hm'keys k).1 hkm) hk
        rw [lookup_none_of_not_mem m' k hnk]
        rfl
      obtain ⟨m2, hm2, hm2p⟩ := ih (acc ++ m')
        (fun q hq => hps q (List.mem_cons_of_mem _ hq))
        (fun nn ll hq => hrec nn ll (List.mem_cons_of_mem _ hq))
        hndR hside
      refine ⟨m' ++ m2, ?_, ?_⟩
      · rw [hm2]
        simp
      · rw [List.flatMap_cons]
        exact List.Perm.append hm'p hm2p

theorem get_tree_correct (hash : String → String)
    (hdig : ∀ s, s ≠ "" → goodDigestB (hash s) = true) (store : Store) :
    ∀ (fuel : Nat) (l : List (String × FSEntry)) (base : String),
      validEntry (.dir l) = true →
      dirDepth l < fuel →
      (∀ o ∈ entryObjs hash (.dir l), store (hash o) = some o) →
      ∃ m, get_tree store fuel (treeOid hash l) base = .ok m
        ∧ List.Perm m (flattenOids hash base l) := by
  intro fuel
  induction fuel with
  | zero => intro l base _ hd _; omega
  | succ f ihf =>
    intro l base hv hd hs
    obtain ⟨hve, hvnd⟩ := validEntry_dir l hv
    have hoid_ne : treeOid hash l ≠ "" := by
      rw [treeOid]
      exact (goodDigestB_props _ (hdig _ (tagged_ne_empty _ _))).1
    have hstore_tree : store (hash ("tree" ++ "\x00" ++
        serializeEntries (List.insertionSort entryLE (triplesOf hash l))))
        = some ("tree" ++ "\x00" ++
          serializeEntries (List.insertionSort entryLE (triplesOf hash l))) := by
      refine hs _ ?_
      rw [entryObjs_dir_eq]
      exact List.mem_append_right _ (List.mem_singleton.2 rfl)
    have hobj : get_object store (treeOid hash l) (some "tree")
        = .ok (serializeEntries (List.insertionSort entryLE (triplesOf hash l))) := by
      rw [treeOid]
      exact get_object_stored store _ "tree" _ hstore_tree (by decide)
    have hps_mem : ∀ p ∈ List.insertionSort (pairLE hash)
        (l.filter (fun p => !is_ignored p.1)), p ∈ l ∧ is_ignored p.1 = false := by
      intro p hp
      have hp2 := (List.perm_insertionSort (pairLE hash) _).mem_iff.1 hp
      have := List.mem_filter.1 hp2
      exact ⟨this.1, by simpa using this.2⟩
    have hps_valid : ∀ p ∈ List.insertionSort (pairLE hash)
        (l.filter (fun p => !is_ignored p.1)),
        validNameB p.1 = true ∧ validEntry p.2 = true := by
      intro p hp
      exact validEntries_mem l hve p.1 p.2 (hps_mem p hp).1
    have hsorted : List.insertionSort entryLE (triplesOf hash l)
        = (List.insertionSort (pairLE hash)
            (l.filter (fun p => !is_ignored p.1))).map
          (fun p => (p.1, entryMeta hash p.2)) := by
      rw [triplesOf_eq, ← map_insertionSort]
    have hnl : ∀ t ∈ (List.insertionSort (pairLE hash)
        (l.filter (fun p => !is_ignored p.1))).map
          (fun p => (p.1, entryMeta hash p.2)), '\n' ∉ (lineStr t).data := by
      intro t ht
      obtain ⟨p, hp, hpt⟩ := List.mem_map.1 ht
      subst hpt
      obtain ⟨hn, he⟩ := hps_valid p hp
      match hpe : p.2 with
      | .file c =>
        have hm : entryMeta hash (.file c) = (hash ("blob" ++ "\x00" ++ c), "blob") := by
          rw [entryMeta]
        refine lineStr_no_newline (p.1, entryMeta hash (.file c)) ?_ ?_ hn
        · rw [hm]; exact Or.inl rfl
        · rw [hm]; exact hdig _ (tagged_ne_empty _ _)
      | .dir l2 =>
        have hm : entryMeta hash (.dir l2) = (treeOid hash l2, "tree") := by
          rw [entryMeta]
        refine lineStr_no_newline (p.1, entryMeta hash (.dir l2)) ?_ ?_ hn
        · rw [hm]; exact Or.inr rfl
        · rw [hm, treeOid]; exact hdig _ (tagged_ne_empty _ _)
    have hlines : pySplitLines (serializeEntries
        (List.insertionSort entryLE (triplesOf hash l)))
        = (List.insertionSort (pairLE hash)
            (l.filter (fun p => !is_ignored p.1))).map
          (fun p => lineStr (p.1, entryMeta hash p.2)) := by
      rw [hsorted, pySplitLines_serialize _ hnl, List.map_map]
      rfl
    have hperm : List.Perm ((List.insertionSort (pairLE hash)
        (l.filter (fun p => !is_ignored p.1))).flatMap (entryBlock hash base))
        (flattenOids hash base l) := by
      rw [flattenOids_eq_flatMap]
      exact List.Perm.flatMap_right _ (List.perm_insertionSort (pairLE hash) _)
    have hrecs : ∀ (nn : String) (ll : List (String × FSEntry)),
        (nn, FSEntry.dir ll) ∈ List.insertionSort (pairLE hash)
          (l.filter (fun p => !is_ignored p.1)) →
        ∃ m', get_tree store f (treeOid hash ll) (base ++ nn ++ "/") = .ok m'
          ∧ List.Perm m' (flattenOids hash (base ++ nn ++ "/") ll) := by
      intro nn ll hmem
      obtain ⟨hmeml, hmemig⟩ := hps_mem _ hmem
      have hvsub := (validEntries_mem l hve nn (.dir ll) hmeml).2
      refine ihf ll (base ++ nn ++ "/") hvsub ?_ ?_
      · have h1 : entryDepth (.dir ll) ≤ dirDepth l :=
          entryDepth_le_of_mem nn _ l hmeml
        rw [entryDepth] at h1
        omega
      · intro o ho
        refine hs o ?_
        rw [entryObjs_dir_eq]
        refine List.mem_append_left _ ?_
        exact mem_dirObjs_of_mem hash l nn _ hmeml hmemig o ho
    obtain ⟨m2, hm2, hm2p⟩ := get_tree_go_correct hash
      (fun o b => get_tree store f o b) hdig base
      (List.insertionSort (pairLE hash) (l.filter (fun p => !is_ignored p.1)))
      [] hps_valid hrecs
      (((hperm.map Prod.fst).nodup_iff).2
        (flattenOids_nodup hash l base hve hvnd))
      (fun k _ => rfl)
    refine ⟨m2, ?_, hm2p.trans hperm⟩
    rw [get_tree, if_neg hoid_ne, hobj]
    show get_tree_go (fun o b => get_tree store f o b)
      (pySplitLines (serializeEntries
        (List.insertionSort entryLE (triplesOf hash l)))) base [] = _
    rw [hlines]
    simpa using hm2

theorem flattenOids_blob (hash : String → String)
    (l : List (String × FSEntry)) (base : String) :
    ∀ p ∈ flattenOids hash base l, ∃ c, p.2 = hash ("blob" ++ "\x00" ++ c)
      ∧ ("blob" ++ "\x00" ++ c) ∈ dirObjs hash l := by
  match l with
  | [] => simp [flattenOids]
  | (n, .file c) :: rest =>
    intro p hp
    rw [flattenOids] at hp
    by_cases hig : is_ignored n
    · rw [if_pos hig] at hp
      obtain ⟨c2, h1, h2⟩ := flattenOids_blob hash rest base p hp
      exact ⟨c2, h1, by rw [dirObjs_cons_ig hash n _ rest hig]; exact h2⟩
    · have higf : is_ignored n = false := by simpa using hig
      rw [if_neg hig] at hp
      rcases List.mem_cons.1 hp with hp | hp
      · subst hp
        refine ⟨c, rfl, ?_⟩
        rw [dirObjs_cons hash n _ rest higf, entryObjs]
        simp
      · obtain ⟨c2, h1, h2⟩ := flattenOids_blob hash rest base p hp
        exact ⟨c2, h1, by
          rw [dirObjs_cons hash n _ rest higf]
          exact List.mem_append_right _ h2⟩
  | (n, .dir l') :: rest =>
    intro p hp
    rw [flattenOids] at hp
    by_cases hig : is_ignored n
    · rw [if_pos hig] at hp
      obtain ⟨c2, h1, h2⟩ := flattenOids_blob hash rest base p hp
      exact ⟨c2, h1, by rw [dirObjs_cons_ig hash n _ rest hig]; exact h2⟩
    · have higf : is_ignored n = false := by simpa using hig
      rw [if_neg hig] at hp
      rcases List.mem_append.1 hp with hp | hp
      · obtain ⟨c2, h1, h2⟩ := flattenOids_blob hash l' (base ++ n ++ "/") p hp
        refine ⟨c2, h1, ?_⟩
        rw [dirObjs_cons hash n _ rest higf, entryObjs_dir_eq]
        exact List.mem_append_left _ (List.mem_append_left _ h2)
      · obtain ⟨c2, h1, h2⟩ := flattenOids_blob hash rest base p hp
        exact ⟨c2, h1, by
          rw [dirObjs_cons hash n _ rest higf]
          exact List.mem_append_right _ h2⟩
termination_by sizeOf l

theorem read_tree_write_eq (store : Store) :
    ∀ (m wd : List (String × String)),
      (∀ p ∈ m, ∃ c, get_object store p.2 (some "blob") = .ok c) →
      (m.map Prod.fst).Nodup →
      (∀ k ∈ m.map Prod.fst, wd.lookup k = none) →
      read_tree_write store wd m
        = .ok (wd ++ m.map (fun p => (p.1, blobContent store p.2))) := by
  intro m
  induction m with
  | nil =>
    intro wd _ _ _
    simp [read_tree_write]
  | cons q rest ih =>
    intro wd hok hnd hdisj
    obtain ⟨path, oid⟩ := q
    obtain ⟨c, hc⟩ := hok _ (List.mem_cons_self _ _)
    have hbc : blobContent store oid = c := by rw [blobContent, hc]
    simp only [List.map_cons, List.nodup_cons] at hnd
    have hfresh : wd.lookup path = none := hdisj path (by simp)
    have hside : ∀ k ∈ rest.map Prod.fst, (wd ++ [(path, c)]).lookup k = none := by
      intro k hk
      rw [List.lookup_append, hdisj k (by simp [hk]),
        lookup_none_of_not_mem [(path, c)] k ?_]
      · rfl
      · simp only [List.map_cons, List.map_nil, List.mem_singleton]
        intro hkp
        exact hnd.1 (hkp ▸ hk)
    simp only [read_tree_write, hc]
    rw [dictInsert_append wd path c hfresh]
    rw [ih (wd ++ [(path, c)]) (fun p hp => hok p (List.mem_cons_of_mem _ hp))
      hnd.2 hside]
    rw [List.map_cons, hbc]
    simp

/-- C6: snapshot fidelity.  Materializing the snapshot just written from a
directory `D` (`read_tree` of `write_tree`) succeeds and leaves the working
directory holding exactly `D`'s (non-ignored) file set with `D`'s byte
contents (as the flat `flatten "./" D` view, up to traversal order), plus
only the files under the store's metadata root, which both the deletion
pass and the snapshot skip — so no file from any previously materialized
state survives.  The digest is assumed collision-free (injective) and
digest strings are nonempty and free of spaces and line breaks; the store
satisfies the content-addressing invariant, and the directory is
well-formed with enough fuel for its nesting depth. -/
theorem C6_snapshot_fidelity (hash : String → String) (store : Store)
    (wd : List (String × String)) (D : List (String × FSEntry)) (fuel : Nat)
    (hinj : Function.Injective hash)
    (hdig : ∀ s, s ≠ "" → goodDigestB (hash s) = true)
    (hca : StoreCA hash store)
    (hD : validEntry (.dir D) = true)
    (hfuel : dirDepth D < fuel) :
    ∃ wd2,
      read_tree (write_tree hash store D).1 wd fuel (write_tree hash store D).2
        = .ok wd2
      ∧ List.Perm wd2
          (wd.filter (fun p => is_ignored p.1) ++ flatten "./" D) := by
  obtain ⟨hve, hvnd⟩ := validEntry_dir D hD
  obtain ⟨hca2, hmono, hhas, htree⟩ := write_tree_store hash hinj store hca D
  have hsall : ∀ o ∈ entryObjs hash (.dir D),
      (write_tree hash store D).1 (hash o) = some o := by
    intro o ho
    rw [entryObjs_dir_eq] at ho
    rcases List.mem_append.1 ho with ho | ho
    · exact hhas o ho
    · rw [List.mem_singleton.1 ho]
      exact htree
  have hsnd : (write_tree hash store D).2 = treeOid hash D :=
    write_tree_snd hash store D
  obtain ⟨m, hm, hmp⟩ := get_tree_correct hash hdig (write_tree hash store D).1
    fuel D "./" hD hfuel hsall
  have hbase : baseOk "./" := by
    refine ⟨['.'], rfl, ?_⟩
    decide
  have hmkeys_nodup : (m.map Prod.fst).Nodup :=
    ((hmp.map Prod.fst).nodup_iff).2 (flattenOids_nodup hash D "./" hve hvnd)
  have hmkeys_ok : ∀ k ∈ m.map Prod.fst, is_ignored k = false := by
    intro k hk
    obtain ⟨p, hp, hpk⟩ := List.mem_map.1 hk
    have hp2 := hmp.mem_iff.1 hp
    rw [← hpk]
    exact flattenOids_not_ignored hash D "./" hve hbase p hp2
  have hmok : ∀ p ∈ m, ∃ c,
      get_object (write_tree hash store D).1 p.2 (some "blob") = .ok c := by
    intro p hp
    have hp2 := hmp.mem_iff.1 hp
    obtain ⟨c, hc1, hc2⟩ := flattenOids_blob hash D "./" p hp2
    refine ⟨c, ?_⟩
    have hst : (write_tree hash store D).1 (hash ("blob" ++ "\x00" ++ c))
        = some ("blob" ++ "\x00" ++ c) := hhas _ hc2
    rw [hc1]
    exact get_object_stored _ _ "blob" c hst (by decide)
  have hwd1 : ∀ q ∈ wd.filter (fun p => is_ignored p.1), is_ignored q.1 = true :=
    fun q hq => (List.mem_filter.1 hq).2
  have hdisj : ∀ k ∈ m.map Prod.fst,
      (wd.filter (fun p => is_ignored p.1)).lookup k = none := by
    intro k hk
    exact lookup_none_of_ignored _ k hwd1 (hmkeys_ok k hk)
  refine ⟨wd.filter (fun p => is_ignored p.1)
    ++ m.map (fun p => (p.1, blobContent (write_tree hash store D).1 p.2)), ?_, ?_⟩
  · rw [read_tree, hsnd]
    simp only [hm, empty_current_directory]
    exact read_tree_write_eq (write_tree hash store D).1 m
      (wd.filter (fun p => is_ignored p.1)) hmok hmkeys_nodup hdisj
  · refine List.Perm.append_left _ ?_
    have hfl : flatten "./" D = (flattenOids hash "./" D).map
        (fun p => (p.1, blobContent (write_tree hash store D).1 p.2)) :=
      flatten_eq_map hash (write_tree hash store D).1 D "./" fun o ho => by
        refine hsall o ?_
        rw [entryObjs_dir_eq]
        exact List.mem_append_left _ ho
    rw [hfl]
    exact hmp.map _

/-- A concrete injective digest function for witnesses: every character is
escaped to a two-character code avoiding spaces and line breaks, after a
fixed leading marker that keeps every digest nonempty. -/
def encChar (c : Char) : List Char :=
  if c = ' ' then ['e', 's']
  else if c = '\n' then ['e', 'n']
  else if c = '\r' then ['e', 'r']
  else if c = '\x0b' then ['e', 'v']
  else if c = '\x0c' then ['e', 'f']
  else if c = '\x1c' then ['e', 'a']
  else if c = '\x1d' then ['e', 'b']
  else if c = '\x1e' then ['e', 'c']
  else if c = '\x85' then ['e', 'd']
  else if c = '\u2028' then ['e', 'g']
  else if c = '\u2029' then ['e', 'h']
  else if c = 'e' then ['e', 'e']
  else ['q', c]

/-- Inverse of one `encChar` code pair. -/
def decChar (a b : Char) : Char :=
  if a = 'e' then
    (if b = 's' then ' '
     else if b = 'n' then '\n'
     else if b = 'r' then '\r'
     else if b = 'v' then '\x0b'
     else if b = 'f' then '\x0c'
     else if b = 'a' then '\x1c'
     else if b = 'b' then '\x1d'
     else if b = 'c' then '\x1e'
     else if b = 'd' then '\x85'
     else if b = 'g' then '\u2028'
     else if b = 'h' then '\u2029'
     else 'e')
  else b

/-- Pairwise decoder, the left inverse of `List.flatMap encChar`. -/
def decPairs : List Char → List Char
  | a :: b :: rest => decChar a b :: decPairs rest
  | _ => []

theorem encChar_spec (c : Char) :
    ∃ a b, encChar c = [a, b] ∧ decChar a b = c
      ∧ (a != ' ' && !pyLineBreak a) = true
      ∧ (b != ' ' && !pyLineBreak b) = true := by
  by_cases h1 : c = ' '
  · exact ⟨'e', 's', by simp [encChar, h1], by rw [h1]; decide,
      by decide, by decide⟩
  by_cases h2 : c = '\n'
  · exact ⟨'e', 'n', by simp [encChar, h1, h2], by rw [h2]; decide,
      by decide, by decide⟩
  by_cases h3 : c = '\r'
  · exact ⟨'e', 'r', by simp [encChar, h1, h2, h3], by rw [h3]; decide,
      by decide, by decide⟩
  by_cases h4 : c = '\x0b'
  · exact ⟨'e', 'v', by simp [encChar, h1, h2, h3, h4], by rw [h4]; decide,
      by decide, by decide⟩
  by_cases h5 : c = '\x0c'
  · exact ⟨'e', 'f', by simp [encChar, h1, h2, h3, h4, h5], by rw [h5]; decide,
      by decide, by decide⟩
  by_cases h6 : c = '\x1c'
  · exact ⟨'e', 'a', by simp [encChar, h1, h2, h3, h4, h5, h6],
      by rw [h6]; decide, by decide, by decide⟩
  by_cases h7 : c = '\x1d'
  · exact ⟨'e', 'b', by simp [encChar, h1, h2, h3, h4, h5, h6, h7],
      by rw [h7]; decide, by decide, by decide⟩
  by_cases h8 : c = '\x1e'
  · exact ⟨'e', 'c', by simp [encChar, h1, h2, h3, h4, h5, h6, h7, h8],
      by rw [h8]; decide, by decide, by decide⟩
  by_cases h9 : c = '\x85'
  · exact ⟨'e', 'd', by simp [encChar, h1, h2, h3, h4, h5, h6, h7, h8, h9],
      by rw [h9]; decide, by decide, by decide⟩
  by_cases h10 : c = '\u2028'
  · exact ⟨'e', 'g',
      by simp [encChar, h1, h2, h3, h4, h5, h6, h7, h8, h9, h10],
      by rw [h10]; decide, by decide, by decide⟩
  by_cases h11 : c = '\u2029'
  · exact ⟨'e', 'h',
      by simp [encChar, h1, h2, h3, h4, h5, h6, h7, h8, h9, h10, h11],
      by rw [h11]; decide, by decide, by decide⟩
  by_cases h12 : c = 'e'
  · exact ⟨'e', 'e',
      by simp [encChar, h1, h2, h3, h4, h5, h6, h7, h8, h9, h10, h11, h12],
      by rw [h12]; decide, by decide, by decide⟩
  refine ⟨'q', c,
    by simp [encChar, h1, h2, h3, h4, h5, h6, h7, h8, h9, h10, h11, h12],
    ?_, by decide, ?_⟩
  · rw [decChar, if_neg (by decide)]
  · simp only [Bool.and_eq_true, bne_iff_ne, ne_eq, Bool.not_eq_true']
    refine ⟨h1, ?_⟩
    simp only [pyLineBreak, Bool.or_eq_false_iff]
    refine ⟨⟨⟨⟨⟨⟨⟨⟨⟨?_, ?_⟩, ?_⟩, ?_⟩, ?_⟩, ?_⟩, ?_⟩, ?_⟩, ?_⟩, ?_⟩ <;>
      simp only [decide_eq_false_iff_not] <;> assumption

theorem decPairs_enc (l : List Char) : decPairs (l.flatMap encChar) = l := by
  induction l with
  | nil => rfl
  | cons c t ih =>
    obtain ⟨a, b, he, hd, _, _⟩ := encChar_spec c
    rw [List.flatMap_cons, he]
    show decPairs (a :: b :: t.flatMap encChar) = c :: t
    rw [decPairs, hd, ih]

/-- The witness digest: injective, nonempty, space- and line-break-free. -/
def demoHash (s : String) : String := ⟨'h' :: s.data.flatMap encChar⟩

theorem demoHash_injective : Function.Injective demoHash := by
  intro s1 s2 h
  have h2 : 'h' :: s1.data.flatMap encChar
      = 'h' :: s2.data.flatMap encChar :=
    congrArg String.data h
  injection h2 with _ h3
  have h4 := congrArg decPairs h3
  rw [decPairs_enc, decPairs_enc] at h4
  exact String.ext h4

theorem encChar_good (c : Char) :
    ∀ x ∈ encChar c, (x != ' ' && !pyLineBreak x) = true := by
  obtain ⟨a, b, he, _, ha, hb⟩ := encChar_spec c
  intro x hx
  rw [he] at hx
  rcases List.mem_cons.1 hx with h | h
  · subst h; exact ha
  · have h2 := List.mem_singleton.1 h
    subst h2; exact hb

theorem demoHash_good (s : String) : goodDigestB (demoHash s) = true := by
  simp only [goodDigestB, Bool.and_eq_true, bne_iff_ne, ne_eq,
    List.all_eq_true]
  constructor
  · intro h
    have := congrArg String.data h
    simp only [demoHash] at this
    cases this
  · intro c hc
    have hc2 : c ∈ 'h' :: s.data.flatMap encChar := hc
    rcases List.mem_cons.1 hc2 with hc3 | hc3
    · subst hc3; decide
    · obtain ⟨x, _, hcx⟩ := List.mem_flatMap.1 hc3
      have hg := encChar_good x c hcx
      simp only [Bool.and_eq_true, bne_iff_ne, ne_eq] at hg
      exact hg

/-- A small concrete snapshot source for the witness: one file and one
subdirectory holding another file. -/
def demoDir : List (String × FSEntry) :=
  [("a.txt", .file "hi"), ("sub", .dir [("b.txt", .file "ok")])]

theorem demoDir_valid : validEntry (.dir demoDir) = true := by
  simp [demoDir, validEntry, validEntries, validNameB, pyLineBreak]

theorem demoDir_depth : dirDepth demoDir < 3 := by
  simp [demoDir, dirDepth, entryDepth]

theorem C6_snapshot_fidelity_witness :
    Function.Injective demoHash
    ∧ (∀ s, s ≠ "" → goodDigestB (demoHash s) = true)
    ∧ StoreCA demoHash (fun _ => none)
    ∧ validEntry (.dir demoDir) = true
    ∧ dirDepth demoDir < 3
    ∧ ∃ wd2,
        read_tree (write_tree demoHash (fun _ => none) demoDir).1 [] 3
            (write_tree demoHash (fun _ => none) demoDir).2 = .ok wd2
        ∧ List.Perm wd2
            (([] : List (String × String)).filter (fun p => is_ignored p.1)
              ++ flatten "./" demoDir) := by
  have hca : StoreCA demoHash (fun _ => none) := fun _ _ h => Option.noConfusion h
  exact ⟨demoHash_injective, fun s _ => demoHash_good s, hca,
    demoDir_valid, demoDir_depth,
    C6_snapshot_fidelity demoHash (fun _ => none) [] demoDir 3
      demoHash_injective (fun s _ => demoHash_good s) hca
      demoDir_valid demoDir_depth⟩
